import Mathlib

/-! The program `maze.cc`: distance field and shortest-path enumeration.

Shallow embedding of `src/maze.cc`.

* `coords` and `vec2` are the two data types of the program.  The C++ `int`
  is modelled by `Int`; the grids handled here are far below the 32 bit range,
  so no wrap-around is modelled.
* `vec2::operator[]` reads and writes the flat vector at `pos.m*N+pos.n`
  without any bounds check.  `vec2.read` and `vec2.write` return `none` when
  that flat index lies outside the vector (undefined behaviour in C++), and
  the algorithms propagate `none`.  A flat index that is inside the vector
  although the coordinate is not `valid` aliases another cell, exactly as in
  the program.
* The outer loop of `get_steps_map` and the recursion of `recv` are modelled
  with a fuel argument; `none` is also the result when the fuel runs out.
  The theorems below show that the fuel chosen by `get_steps_map` and
  `find_shortest_paths` is enough on every grid with an in-bounds origin
  (`get_steps_map_final`, `find_shortest_paths_reached`) and that more fuel
  does not change a result (`get_steps_map_fuel_mono`,
  `find_shortest_paths_fuel_mono`).
-/

/-- Field coordinates (`struct coords`): row `m`, column `n`. -/
structure coords where
  m : Int
  n : Int
deriving DecidableEq, Repr

namespace coords

/-- The cell above: `coords::up`. -/
def up (c : coords) : coords := ⟨c.m - 1, c.n⟩

/-- The cell below: `coords::down`. -/
def down (c : coords) : coords := ⟨c.m + 1, c.n⟩

/-- The cell to the left: `coords::left`. -/
def left (c : coords) : coords := ⟨c.m, c.n - 1⟩

/-- The cell to the right: `coords::right`. -/
def right (c : coords) : coords := ⟨c.m, c.n + 1⟩

/-- The four neighbours in the order up, down, left, right: `coords::neighbors`. -/
def neighbors (c : coords) : List coords := [c.up, c.down, c.left, c.right]

end coords

/-- The conversion of an `int` to the 64 bit unsigned `std::size_t`. -/
def to_size_t (x : Int) : Nat := (x % 2 ^ 64).toNat

/-- The conversion of a `std::size_t` to the 32 bit two's complement `int`. -/
def to_int (x : Nat) : Int := ((x : Int) + 2 ^ 31) % 2 ^ 32 - 2 ^ 31

/-- The 2d vector class `vec2`: dimensions `M`, `N` and the flat row-major `data`. -/
structure vec2 where
  M : Int
  N : Int
  data : List Int
deriving DecidableEq, Repr

namespace vec2

/-- The constructor `vec2(M_, N_, init)`: `M*N` cells, all equal to `init`. -/
def fill (M N : Int) (init : Int) : vec2 := ⟨M, N, List.replicate (M * N).toNat init⟩

/-- The default constructor `vec2()`, which is `vec2(0,0)`. -/
def nil : vec2 := fill 0 0 0

/-- The constructor `vec2(M_, data_)`, in a build with assertions enabled.
The members are initialised in the order of their declaration, `M`, `N`,
`data`: `N` is `data_.size()/M` (computed in `std::size_t`, 0 when `M_` is 0),
then `data(std::move(data_))` takes the cells and leaves `data_` empty.  The
body `assert(data_.size()%M == 0)` runs after that, on the `moved_from`
vector.  The result is `none` when the assertion fails, and when `M_` is 0,
where the assertion divides by zero. -/
def from_data (M_ : Int) (data_ : List Int) : Option vec2 :=
  let N := if M_ ≠ 0 then to_int (data_.length / to_size_t M_) else 0
  let moved_from : List Int := []
  if M_ = 0 then none
  else if moved_from.length % to_size_t M_ = 0 then some ⟨M_, N, data_⟩
  else none

/-- The flat index `pos.m*N+pos.n` used by `operator[]`. -/
def index (v : vec2) (pos : coords) : Int := pos.m * v.N + pos.n

/-- Reading `v[pos]`; `none` when the flat index is outside the vector. -/
def read (v : vec2) (pos : coords) : Option Int :=
  if 0 ≤ v.index pos then v.data[(v.index pos).toNat]? else none

/-- Writing `v[pos] = x`; `none` when the flat index is outside the vector. -/
def write (v : vec2) (pos : coords) (x : Int) : Option vec2 :=
  if 0 ≤ v.index pos ∧ (v.index pos).toNat < v.data.length then
    some ⟨v.M, v.N, v.data.set (v.index pos).toNat x⟩
  else none

/-- The query `vec2::empty`. -/
def empty (v : vec2) : Bool := v.data.isEmpty

/-- The query `vec2::valid`. -/
def valid (v : vec2) (pos : coords) : Bool :=
  decide (0 ≤ pos.m) && decide (pos.m < v.M) && decide (0 ≤ pos.n) && decide (pos.n < v.N)

end vec2

/-- The body of the innermost loop of `get_steps_map` for one neighbour `nn`:
`if (maze.valid(nn) && maze[nn]!=1 && res[nn]==-1) { res[nn] = k; push_back(nn); }`.
The state is the result field together with the queue `current_fields`. -/
def visit (maze : vec2) (k : Int) (st : vec2 × List coords) (nn : coords) :
    Option (vec2 × List coords) :=
  if maze.valid nn then
    match maze.read nn with
    | none => none
    | some a =>
      if a ≠ 1 then
        match st.1.read nn with
        | none => none
        | some b =>
          if b = -1 then
            match st.1.write nn k with
            | none => none
            | some r => some (r, st.2 ++ [nn])
          else some st
      else some st
  else some st

/-- The loop `for (const auto& nn: field.neighbors())` of `get_steps_map`. -/
def visit_all (maze : vec2) (k : Int) :
    List coords → vec2 × List coords → Option (vec2 × List coords)
  | [], st => some st
  | nn :: rest, st =>
    match visit maze k st nn with
    | none => none
    | some st1 => visit_all maze k rest st1

/-- The loop `for (const auto& field: current_fields)` of `get_steps_map`.
The loop body appends to the deque and pops its front while the range-for runs
over it.  The begin and end iterators of a range-for are taken once, before
the first iteration, so the loop runs once for each of the `cnt` cells that
are in the queue when the round starts: each iteration looks at the front
cell, appends the newly labelled neighbours at the back (behind the end taken
at the start) and then pops the front, which makes the next cell the front.
The C++ standard lets `push_back` invalidate deque iterators; the model
follows the program as it runs, with the iterators still usable. -/
def fields_loop (maze : vec2) (k : Int) : Nat → vec2 × List coords → Option (vec2 × List coords)
  | 0, st => some st
  | cnt + 1, st =>
    match st.2 with
    | [] => none
    | field :: _ =>
      match visit_all maze k field.neighbors st with
      | none => none
      | some st1 => fields_loop maze k cnt (st1.1, st1.2.tail)

/-- The outer loop `for (int current_step_index=1; !current_fields.empty();
++current_step_index)` of `get_steps_map`, with fuel. -/
def steps_loop (maze : vec2) : Nat → Int → vec2 → List coords → Option vec2
  | 0, _, _, _ => none
  | fuel + 1, k, res, q =>
    if q.isEmpty then some res
    else
      match fields_loop maze k q.length (res, q) with
      | none => none
      | some st => steps_loop maze fuel (k + 1) st.1 st.2

/-- The function `get_steps_map` run with the given fuel for its outer loop. -/
def get_steps_map_fuel (fuel : Nat) (maze : vec2) (origin : coords) : Option vec2 :=
  if maze.empty || !maze.valid origin then some vec2.nil
  else
    match (vec2.fill maze.M maze.N (-1)).write origin 0 with
    | none => none
    | some res => steps_loop maze fuel 1 res [origin]

/-- The function `get_steps_map`: the outer loop gets one unit of fuel for
every cell of the grid and one more for the final test of the queue. -/
def get_steps_map (maze : vec2) (origin : coords) : Option vec2 :=
  get_steps_map_fuel (maze.data.length + 1) maze origin

/-- The loop `for (const auto& nn: path.back().neighbors())` inside `recv`:
`v` is `map[path.back()]`, `new_pos` the first predecessor found so far
(`{-1,-1}` before any is found), `res` the accumulator shared by reference and
`rec` the recursive call of `recv`. -/
def recv_scan (map : vec2) (rec : List coords → List (List coords) → Option (List (List coords)))
    (path : List coords) (v : Int) :
    List coords → coords → List (List coords) → Option (coords × List (List coords))
  | [], new_pos, res => some (new_pos, res)
  | nn :: rest, new_pos, res =>
    if map.valid nn then
      match map.read nn with
      | none => none
      | some w =>
        if w = v - 1 then
          if new_pos.m = -1 then recv_scan map rec path v rest nn res
          else
            match rec (path ++ [nn]) res with
            | none => none
            | some res1 => recv_scan map rec path v rest new_pos res1
        else recv_scan map rec path v rest new_pos res
    else recv_scan map rec path v rest new_pos res

/-- The recursive lambda `recv` of `find_shortest_paths`.  One unit of fuel is
used for every iteration of its `while` loop (and so for every level of the
recursion); `res` is the accumulator captured by reference. -/
def recv (map : vec2) : Nat → List coords → List (List coords) → Option (List (List coords))
  | 0, _, _ => none
  | fuel + 1, path, res =>
    match path.getLast? with
    | none => none
    | some back =>
      match map.read back with
      | none => none
      | some v =>
        if v = 0 then some (res ++ [path])
        else
          match recv_scan map (fun p r => recv map fuel p r) path v back.neighbors ⟨-1, -1⟩ res with
          | none => none
          | some (new_pos, res1) => recv map fuel (path ++ [new_pos]) res1

/-- The final loop `for (auto& path: res) std::reverse(res.begin(),res.end());`:
the outer collection is reversed once for every path it holds. -/
def reverse_loop (res : List (List coords)) : List (List coords) :=
  res.foldl (fun acc _ => acc.reverse) res

/-- The function `find_shortest_paths` run with the given fuel for `recv`. -/
def find_shortest_paths_fuel (fuel : Nat) (map : vec2) (finish : coords) :
    Option (List (List coords)) :=
  if map.empty then some []
  else
    match map.read finish with
    | none => none
    | some v =>
      if v = -1 then some []
      else
        match recv map fuel [finish] [] with
        | none => none
        | some res => some (reverse_loop res)

/-- The function `find_shortest_paths`: `recv` gets one unit of fuel for every
cell of the field and one more for the final test of the `while` loop. -/
def find_shortest_paths (map : vec2) (finish : coords) : Option (List (List coords)) :=
  find_shortest_paths_fuel (map.data.length + 1) map finish

/-- The grids built by the constructors of `vec2`: the flat vector holds at
least `M*N` cells (exactly `M*N` for `vec2(M,N,init)`). -/
def vec2.wf (v : vec2) : Prop := v.M * v.N ≤ (v.data.length : Int)

instance (v : vec2) : Decidable v.wf := inferInstanceAs (Decidable (v.M * v.N ≤ (v.data.length : Int)))

/-- One move of a route: from `a` into the 4-neighbour `b`, which is in bounds
and not labelled blocked (1). -/
def step (maze : vec2) (a b : coords) : Prop :=
  b ∈ a.neighbors ∧ maze.valid b = true ∧ maze.read b ≠ some 1

instance (maze : vec2) (a b : coords) : Decidable (step maze a b) :=
  inferInstanceAs (Decidable (b ∈ a.neighbors ∧ maze.valid b = true ∧ maze.read b ≠ some 1))

/-- Every cell of `p` after the first is entered from the cell before it by a `step`. -/
def moves_ok (maze : vec2) : List coords → Prop
  | a :: b :: rest => step maze a b ∧ moves_ok maze (b :: rest)
  | [_] => True
  | [] => True

/-- Deciding `moves_ok` cell by cell. -/
def moves_ok_dec (maze : vec2) : (p : List coords) → Decidable (moves_ok maze p)
  | a :: b :: rest =>
    match (inferInstance : Decidable (step maze a b)), moves_ok_dec maze (b :: rest) with
    | isTrue h1, isTrue h2 => isTrue ⟨h1, h2⟩
    | isFalse h1, _ => isFalse (fun h => h1 h.1)
    | _, isFalse h2 => isFalse (fun h => h2 h.2)
  | [_] => isTrue trivial
  | [] => isTrue trivial

instance (maze : vec2) (p : List coords) : Decidable (moves_ok maze p) := moves_ok_dec maze p

/-- A route from `a` to `b`, as the sequence of its cells: it starts at `a`,
ends at `b`, and every cell after the first is entered by a `step`. -/
def IsRoute (maze : vec2) (a b : coords) (p : List coords) : Prop :=
  moves_ok maze p ∧ p.head? = some a ∧ p.getLast? = some b

instance (maze : vec2) (a b : coords) (p : List coords) : Decidable (IsRoute maze a b p) :=
  inferInstanceAs (Decidable (moves_ok maze p ∧ p.head? = some a ∧ p.getLast? = some b))

/-- A route with the minimum number of moves among all routes from `a` to `b`. -/
def IsShortestRoute (maze : vec2) (a b : coords) (p : List coords) : Prop :=
  IsRoute maze a b p ∧ ∀ p', IsRoute maze a b p' → p.length ≤ p'.length

/-! ## Routes, distances and the invariants of the two algorithms -/

/-- A route into `t` read backwards: `s` lists the cells before `t`, the nearest first, and
ends with the origin (so `t :: s` is the route from `t` back to the origin). -/
def BackRoute (maze : vec2) (origin : coords) : coords → List coords → Prop
  | t, [] => t = origin
  | t, q :: s => step maze q t ∧ BackRoute maze origin q s

/-- The cell `c` can be reached from the origin by a route of exactly `n` moves. -/
def Reach (maze : vec2) (origin : coords) (n : Nat) (c : coords) : Prop :=
  ∃ s, s.length = n ∧ BackRoute maze origin c s

/-- The minimum number of moves of a route from the origin to `c` is `n`. -/
def MinReach (maze : vec2) (origin : coords) (n : Nat) (c : coords) : Prop :=
  Reach maze origin n c ∧ ∀ m, m < n → ¬ Reach maze origin m c

/-- The state of `get_steps_map` while the round with `current_step_index = j+1` runs:
`res` is the field, `newq` the cells appended to the queue in this round so far, and `c0`
the number of cells that read `-1` when the round started. -/
structure Mid (maze : vec2) (origin : coords) (j : Nat) (res : vec2) (newq : List coords)
    (c0 : Nat) : Prop where
  M_eq : res.M = maze.M
  N_eq : res.N = maze.N
  len : (res.data.length : Int) = maze.M * maze.N
  range : ∀ p x, maze.valid p = true → res.read p = some x → x = -1 ∨ (0 ≤ x ∧ x ≤ (j : Int) + 1)
  old : ∀ p, maze.valid p = true → ∀ d : Nat, d ≤ j →
    (res.read p = some (d : Int) ↔ MinReach maze origin d p)
  new : ∀ p, maze.valid p = true → res.read p = some ((j : Int) + 1) →
    MinReach maze origin (j + 1) p
  newq_iff : ∀ p, p ∈ newq ↔ maze.valid p = true ∧ res.read p = some ((j : Int) + 1)
  cnt : res.data.count (-1) + newq.length = c0
  bound : ∀ p x, maze.valid p = true → res.read p = some x →
    x + 1 + (res.data.count (-1) : Int) ≤ res.data.length

/-- The field `res1` keeps every label of `res` other than `-1`. -/
def Keeps (maze res res1 : vec2) : Prop :=
  ∀ p x, maze.valid p = true → res.read p = some x → x ≠ -1 → res1.read p = some x

/-- Every in-bounds, unblocked neighbour of `f` has a label in `res`. -/
def Closed (maze res : vec2) (f : coords) : Prop :=
  ∀ nn, nn ∈ f.neighbors → maze.valid nn = true → maze.read nn ≠ some 1 → res.read nn ≠ some (-1)

/-- The state of `get_steps_map` at the start of the round with `current_step_index = j+1`:
the cells labelled so far are those at distance at most `j`, each with its distance, and
the queue `q` holds the cells labelled `j`. -/
structure Level (maze : vec2) (origin : coords) (j : Nat) (res : vec2) (q : List coords) :
    Prop where
  M_eq : res.M = maze.M
  N_eq : res.N = maze.N
  len : (res.data.length : Int) = maze.M * maze.N
  range : ∀ p x, maze.valid p = true → res.read p = some x → x = -1 ∨ (0 ≤ x ∧ x ≤ (j : Int))
  old : ∀ p, maze.valid p = true → ∀ d : Nat, d ≤ j →
    (res.read p = some (d : Int) ↔ MinReach maze origin d p)
  q_iff : ∀ p, p ∈ q ↔ maze.valid p = true ∧ res.read p = some (j : Int)
  bound : ∀ p x, maze.valid p = true → res.read p = some x →
    x + 1 + (res.data.count (-1) : Int) ≤ res.data.length

/-- The field `D` that `get_steps_map` returns for `maze` and `origin`: it has the shape of
the grid, every in-bounds cell reads `-1` or more, it reads `d` exactly at the cells whose
minimum number of moves from the origin is `d`, and no label reaches the number of cells. -/
structure Final (maze : vec2) (origin : coords) (D : vec2) : Prop where
  M_eq : D.M = maze.M
  N_eq : D.N = maze.N
  len : (D.data.length : Int) = maze.M * maze.N
  range : ∀ p x, maze.valid p = true → D.read p = some x → -1 ≤ x
  dist : ∀ p, maze.valid p = true → ∀ d : Nat,
    (D.read p = some (d : Int) ↔ MinReach maze origin d p)
  bound : ∀ p x, maze.valid p = true → D.read p = some x → x + 1 ≤ D.data.length

/-- The predecessors of `t` in the field `D`: the in-bounds neighbours that read `n`, in the
order up, down, left, right in which `recv` meets them. -/
def preds (D : vec2) (t : coords) (n : Nat) : List coords :=
  t.neighbors.filter (fun nn => D.valid nn && decide (D.read nn = some (n : Int)))

/-- The continuations of the backward walk of `recv` from a cell `t` that reads `n`, in the
order in which `recv` completes them: the branches through the second and later
predecessors first, the one through the first predecessor last. -/
def ext (D : vec2) : Nat → coords → List (List coords)
  | 0, _ => [[]]
  | n + 1, t =>
    match preds D t n with
    | [] => []
    | p :: ps => (ps ++ [p]).flatMap (fun q => (ext D n q).map (fun s => q :: s))

/-- Every in-bounds cell of `D` with a label `n+1` has a predecessor. -/
def HasPred (D : vec2) : Prop :=
  ∀ (t : coords) (n : Nat), D.valid t = true → D.read t = some ((n : Int) + 1) → preds D t n ≠ []

/-- The paths that `recv` has collected for the destination `dest`, which reads `d`, when
the final loop of `find_shortest_paths` starts. -/
def collected (D : vec2) (d : Nat) (dest : coords) : List (List coords) :=
  (ext D d dest).map (fun s => dest :: s)

/-- Two cells that differ by one unit step along exactly one axis. -/
def unit_step (a b : coords) : Prop :=
  (a.m = b.m ∧ (a.n - b.n).natAbs = 1) ∨ (a.n = b.n ∧ (a.m - b.m).natAbs = 1)

/-- The state of the outer loop of `get_steps_map` (the result field and the queue
`current_fields`) when the round with `current_step_index = j+1` starts, after the guards
of `get_steps_map` have passed: the state before the first round is the field with the
origin set to 0 and the queue `[origin]`, and each round is one run of `fields_loop`.
It is `none` once the loop has ended (the queue was empty at an earlier round start). -/
def round_state (maze : vec2) (origin : coords) : Nat → Option (vec2 × List coords)
  | 0 =>
    match (vec2.fill maze.M maze.N (-1)).write origin 0 with
    | none => none
    | some res => some (res, [origin])
  | j + 1 =>
    match round_state maze origin j with
    | none => none
    | some st =>
      if st.2.isEmpty then none
      else fields_loop maze ((j : Int) + 1) st.2.length st

/-- The number of cells appended to the queue of `get_steps_map` up to the start of the
round with `current_step_index = j+1`: the origin, and the cells appended in each round
run so far, which are the queue at the start of the next round. -/
def enqueued (maze : vec2) (origin : coords) : Nat → Nat
  | 0 =>
    match round_state maze origin 0 with
    | none => 0
    | some st => st.2.length
  | j + 1 =>
    enqueued maze origin j +
      match round_state maze origin (j + 1) with
      | none => 0
      | some st => st.2.length

/-- The queue `q` holds every cell at most once, and only in-bounds cells that have a
label other than `-1` in `res`. -/
def QueueOk (maze res : vec2) (q : List coords) : Prop :=
  q.Nodup ∧ ∀ p, p ∈ q → maze.valid p = true ∧ ∃ x, res.read p = some x ∧ x ≠ -1

/-! ## Geometry of `vec2` -/

theorem vec2.valid_iff (v : vec2) (p : coords) :
    v.valid p = true ↔ 0 ≤ p.m ∧ p.m < v.M ∧ 0 ≤ p.n ∧ p.n < v.N := by
  simp [vec2.valid, and_assoc]

theorem vec2.valid_congr {v w : vec2} (hM : v.M = w.M) (hN : v.N = w.N) (p : coords) :
    v.valid p = w.valid p := by
  simp [vec2.valid, hM, hN]

theorem vec2.index_nonneg {v : vec2} {p : coords} (h : v.valid p = true) : 0 ≤ v.index p := by
  rw [vec2.valid_iff] at h
  obtain ⟨h1, h2, h3, h4⟩ := h
  unfold vec2.index
  have : 0 ≤ p.m * v.N := mul_nonneg h1 (by omega)
  omega

theorem vec2.index_lt {v : vec2} {p : coords} (h : v.valid p = true) : v.index p < v.M * v.N := by
  rw [vec2.valid_iff] at h
  obtain ⟨h1, h2, h3, h4⟩ := h
  unfold vec2.index
  have h5 : (p.m + 1) * v.N ≤ v.M * v.N := mul_le_mul_of_nonneg_right (by omega) (by omega)
  have h6 : (p.m + 1) * v.N = p.m * v.N + v.N := by ring
  omega

theorem vec2.index_inj {v : vec2} {p q : coords} (hp : v.valid p = true) (hq : v.valid q = true)
    (h : v.index p = v.index q) : p = q := by
  rw [vec2.valid_iff] at hp hq
  obtain ⟨p1, p2, p3, p4⟩ := hp
  obtain ⟨q1, q2, q3, q4⟩ := hq
  unfold vec2.index at h
  have hm : p.m = q.m := by
    rcases lt_trichotomy p.m q.m with hlt | heq | hgt
    · exfalso
      have h5 : (p.m + 1) * v.N ≤ q.m * v.N := mul_le_mul_of_nonneg_right (by omega) (by omega)
      have h6 : (p.m + 1) * v.N = p.m * v.N + v.N := by ring
      omega
    · exact heq
    · exfalso
      have h5 : (q.m + 1) * v.N ≤ p.m * v.N := mul_le_mul_of_nonneg_right (by omega) (by omega)
      have h6 : (q.m + 1) * v.N = q.m * v.N + v.N := by ring
      omega
  have hn : p.n = q.n := by rw [hm] at h; omega
  cases p; cases q; simp_all

theorem vec2.index_toNat_lt {v : vec2} {p : coords} (hwf : v.wf) (h : v.valid p = true) :
    (v.index p).toNat < v.data.length := by
  have h1 := vec2.index_nonneg h
  have h2 := vec2.index_lt h
  unfold vec2.wf at hwf
  omega

theorem vec2.read_of_valid {v : vec2} {p : coords} (hwf : v.wf) (h : v.valid p = true) :
    ∃ x, v.read p = some x := by
  have h1 := vec2.index_nonneg h
  have h2 := vec2.index_toNat_lt hwf h
  refine ⟨v.data[(v.index p).toNat], ?_⟩
  simp [vec2.read, h1, List.getElem?_eq_getElem h2]

theorem vec2.index_congr {v w : vec2} (hN : v.N = w.N) (p : coords) : v.index p = w.index p := by
  simp [vec2.index, hN]

/-- What a write at a valid cell does. -/
theorem vec2.write_of_valid {v : vec2} {p : coords} (hwf : v.wf) (h : v.valid p = true) (x : Int) :
    ∃ r, v.write p x = some r ∧ r.M = v.M ∧ r.N = v.N ∧ r.data.length = v.data.length ∧
      r.data = v.data.set (v.index p).toNat x ∧
      r.read p = some x ∧ ∀ q, v.valid q = true → q ≠ p → r.read q = v.read q := by
  have h1 := vec2.index_nonneg h
  have h2 := vec2.index_toNat_lt hwf h
  refine ⟨⟨v.M, v.N, v.data.set (v.index p).toNat x⟩, ?_, rfl, rfl, by simp, rfl, ?_, ?_⟩
  · simp [vec2.write, h1, h2]
  · have : vec2.index ⟨v.M, v.N, v.data.set (v.index p).toNat x⟩ p = v.index p := rfl
    simp [vec2.read, this, h1, h2]
  · intro q hq hne
    have hi : vec2.index ⟨v.M, v.N, v.data.set (v.index p).toNat x⟩ q = v.index q := rfl
    have h3 := vec2.index_nonneg hq
    have hne2 : (v.index p).toNat ≠ (v.index q).toNat := by
      intro he
      apply hne
      apply vec2.index_inj hq h
      omega
    simp [vec2.read, hi, h3, List.getElem?_set_ne hne2]

theorem List.count_set_drop {l : List Int} {i : Nat} {a b : Int} (h : l[i]? = some a) (hb : b ≠ a) :
    (l.set i b).count a + 1 = l.count a := by
  induction l generalizing i with
  | nil => simp at h
  | cons x xs ih =>
    cases i with
    | zero =>
      simp at h
      subst h
      simp [List.count_cons, hb]
    | succ i =>
      simp at h
      have := ih h
      simp [List.count_cons]
      omega

theorem List.count_set_keep {l : List Int} {i : Nat} {a b c : Int} (h : l[i]? = some a) (ha : a ≠ c)
    (hb : b ≠ c) : (l.set i b).count c = l.count c := by
  induction l generalizing i with
  | nil => simp at h
  | cons x xs ih =>
    cases i with
    | zero =>
      simp at h
      subst h
      simp [List.count_cons, hb, ha]
    | succ i =>
      simp at h
      have := ih h
      simp [List.count_cons]
      omega

/-! ## Routes and the round invariant of `get_steps_map` -/

theorem reach_zero_iff {maze : vec2} {origin c : coords} : Reach maze origin 0 c ↔ c = origin := by
  constructor
  · rintro ⟨s, hs, hb⟩
    rw [List.length_eq_zero] at hs
    subst hs
    exact hb
  · intro h
    exact ⟨[], rfl, h⟩

theorem reach_succ_iff {maze : vec2} {origin c : coords} {n : Nat} :
    Reach maze origin (n + 1) c ↔ ∃ a, Reach maze origin n a ∧ step maze a c := by
  constructor
  · rintro ⟨s, hs, hb⟩
    cases s with
    | nil => simp at hs
    | cons q s =>
      simp at hs
      exact ⟨q, ⟨s, hs, hb.2⟩, hb.1⟩
  · rintro ⟨a, ⟨s, hs, hb⟩, hst⟩
    exact ⟨a :: s, by simp [hs], hst, hb⟩

theorem reach_valid {maze : vec2} {origin c : coords} {n : Nat} (ho : maze.valid origin = true)
    (h : Reach maze origin n c) : maze.valid c = true := by
  cases n with
  | zero => rw [reach_zero_iff.1 h]; exact ho
  | succ n =>
    obtain ⟨a, _, hst⟩ := reach_succ_iff.1 h
    exact hst.2.1

theorem reach_not_blocked {maze : vec2} {origin c : coords} {n : Nat}
    (h : Reach maze origin (n + 1) c) : maze.read c ≠ some 1 := by
  obtain ⟨a, _, hst⟩ := reach_succ_iff.1 h
  exact hst.2.2

theorem exists_minReach {maze : vec2} {origin c : coords} {n : Nat} (h : Reach maze origin n c) :
    ∃ d, d ≤ n ∧ MinReach maze origin d c := by
  classical
  have hex : ∃ d, Reach maze origin d c := ⟨n, h⟩
  refine ⟨Nat.find hex, Nat.find_min' hex h, Nat.find_spec hex, ?_⟩
  intro m hm
  exact Nat.find_min hex hm

theorem minReach_unique {maze : vec2} {origin c : coords} {d e : Nat}
    (hd : MinReach maze origin d c) (he : MinReach maze origin e c) : d = e := by
  rcases lt_trichotomy d e with h | h | h
  · exact absurd hd.1 (he.2 d h)
  · exact h
  · exact absurd he.1 (hd.2 e h)

theorem minReach_zero_iff {maze : vec2} {origin c : coords} :
    MinReach maze origin 0 c ↔ c = origin := by
  constructor
  · intro h; exact reach_zero_iff.1 h.1
  · intro h; exact ⟨reach_zero_iff.2 h, fun m hm => absurd hm (Nat.not_lt_zero m)⟩

theorem minReach_pred {maze : vec2} {origin c : coords} {n : Nat}
    (h : MinReach maze origin (n + 1) c) : ∃ a, MinReach maze origin n a ∧ step maze a c := by
  obtain ⟨a, ha, hst⟩ := reach_succ_iff.1 h.1
  refine ⟨a, ⟨ha, ?_⟩, hst⟩
  intro m hm hr
  exact h.2 (m + 1) (by omega) (reach_succ_iff.2 ⟨a, hr, hst⟩)

theorem Mid.res_wf {maze : vec2} {origin : coords} {j : Nat} {res : vec2} {newq : List coords}
    {c0 : Nat} (h : Mid maze origin j res newq c0) : res.wf := by
  unfold vec2.wf
  rw [h.M_eq, h.N_eq, h.len]

theorem Mid.valid_res {maze : vec2} {origin : coords} {j : Nat} {res : vec2} {newq : List coords}
    {c0 : Nat} (h : Mid maze origin j res newq c0) (p : coords) : res.valid p = maze.valid p :=
  vec2.valid_congr h.M_eq h.N_eq p

theorem vec2.read_eq_getElem? {v : vec2} {p : coords} {x : Int} (h : v.read p = some x) :
    v.data[(v.index p).toNat]? = some x := by
  unfold vec2.read at h
  split at h
  · exact h
  · exact absurd h (by simp)

theorem visit_mid {maze : vec2} {origin : coords} {j : Nat} {res : vec2} {newq : List coords}
    {c0 : Nat} (hwf : maze.wf) (h : Mid maze origin j res newq c0) {f nn : coords}
    (hf : maze.valid f = true) (hfj : res.read f = some (j : Int)) (hnn : nn ∈ f.neighbors)
    (pre : List coords) :
    ∃ res1 newq1, visit maze ((j : Int) + 1) (res, pre ++ newq) nn = some (res1, pre ++ newq1) ∧
      Mid maze origin j res1 newq1 c0 ∧
      (∀ p x, maze.valid p = true → res.read p = some x → x ≠ -1 → res1.read p = some x) ∧
      (maze.valid nn = true → maze.read nn ≠ some 1 → res1.read nn ≠ some (-1)) := by
  unfold visit
  by_cases hv : maze.valid nn = true
  swap
  · refine ⟨res, newq, by simp [hv], h, fun p x _ hx _ => hx, fun hc => absurd hc hv⟩
  obtain ⟨a, ha⟩ := vec2.read_of_valid hwf hv
  by_cases ha1 : a = 1
  · subst ha1
    refine ⟨res, newq, by simp [hv, ha], h, fun p x _ hx _ => hx, fun _ hc => absurd ha hc⟩
  have hrv : res.valid nn = true := by rw [h.valid_res]; exact hv
  obtain ⟨b, hb⟩ := vec2.read_of_valid h.res_wf hrv
  by_cases hb1 : b = -1
  swap
  · refine ⟨res, newq, by simp [hv, ha, ha1, hb, hb1], h, fun p x _ hx _ => hx, ?_⟩
    intro _ _ hc
    rw [hb] at hc
    exact hb1 (by simpa using hc)
  subst hb1
  obtain ⟨r, hw, rM, rN, rlen, rdata, rsame, rother⟩ := vec2.write_of_valid h.res_wf hrv ((j : Int) + 1)
  have hother : ∀ q, maze.valid q = true → q ≠ nn → r.read q = res.read q := by
    intro q hq hne
    exact rother q (by rw [h.valid_res]; exact hq) hne
  have hfmin : MinReach maze origin j f := (h.old f hf j le_rfl).1 hfj
  have hstep : step maze f nn := ⟨hnn, hv, by rw [ha]; simpa using ha1⟩
  have hnot : ∀ m, m < j + 1 → ¬ Reach maze origin m nn := by
    intro m hm hr
    obtain ⟨d, hd, hmin⟩ := exists_minReach hr
    have := (h.old nn hv d (by omega)).2 hmin
    rw [hb] at this
    simp at this
  have hcount : r.data.count (-1) + 1 = res.data.count (-1) := by
    rw [rdata]
    exact List.count_set_drop (vec2.read_eq_getElem? hb) (by omega)
  refine ⟨r, newq ++ [nn], ?_, ?_, ?_, ?_⟩
  · simp [hv, ha, ha1, hb, hw]
  · refine ⟨by rw [rM, h.M_eq], by rw [rN, h.N_eq], by rw [rlen, h.len], ?_, ?_, ?_, ?_, ?_, ?_⟩
    · intro p x hp hx
      by_cases hpn : p = nn
      · subst hpn
        rw [rsame] at hx
        have : (j : Int) + 1 = x := by simpa using hx
        right; omega
      · rw [hother p hp hpn] at hx
        exact h.range p x hp hx
    · intro p hp d hd
      by_cases hpn : p = nn
      · subst hpn
        rw [rsame]
        constructor
        · intro he
          have : (j : Int) + 1 = (d : Int) := by simpa using he
          omega
        · intro hmin
          exact absurd hmin.1 (hnot d (by omega))
      · rw [hother p hp hpn]
        exact h.old p hp d hd
    · intro p hp hx
      by_cases hpn : p = nn
      · subst hpn
        exact ⟨reach_succ_iff.2 ⟨f, hfmin.1, hstep⟩, hnot⟩
      · rw [hother p hp hpn] at hx
        exact h.new p hp hx
    · intro p
      by_cases hpn : p = nn
      · subst hpn
        simp [hv, rsame]
      · rw [List.mem_append, h.newq_iff p]
        simp only [List.mem_singleton, hpn, or_false]
        constructor
        · rintro ⟨hp, hx⟩
          exact ⟨hp, by rw [hother p hp hpn]; exact hx⟩
        · rintro ⟨hp, hx⟩
          exact ⟨hp, by rw [← hother p hp hpn]; exact hx⟩
    · have := h.cnt
      simp only [List.length_append, List.length_singleton]
      omega
    · intro p x hp hx
      rw [rlen]
      by_cases hpn : p = nn
      · subst hpn
        rw [rsame] at hx
        have hx2 : (j : Int) + 1 = x := by simpa using hx
        have := h.bound f j hf hfj
        omega
      · rw [hother p hp hpn] at hx
        have := h.bound p x hp hx
        omega
  · intro p x hp hx hne
    by_cases hpn : p = nn
    · subst hpn
      rw [hb] at hx
      exact absurd (by simpa using hx.symm) hne
    · rw [hother p hp hpn]; exact hx
  · intro _ _
    rw [rsame]
    simp
    omega

/-! ## The inner loops of `get_steps_map` -/

theorem Keeps.refl (maze res : vec2) : Keeps maze res res := fun _ _ _ hx _ => hx

theorem Keeps.trans {maze a b c : vec2} (h1 : Keeps maze a b) (h2 : Keeps maze b c) :
    Keeps maze a c := fun p x hp hx hne => h2 p x hp (h1 p x hp hx hne) hne

theorem Keeps.labelled {maze res res1 : vec2} (hk : Keeps maze res res1) {p : coords}
    (hp : maze.valid p = true) (hx : ∃ x, res.read p = some x) (hne : res.read p ≠ some (-1)) :
    res1.read p ≠ some (-1) := by
  obtain ⟨x, hx⟩ := hx
  have hx1 : x ≠ -1 := by
    intro h; subst h; exact hne hx
  rw [hk p x hp hx hx1]
  simpa using hx1

theorem Mid.read_res {maze : vec2} {origin : coords} {j : Nat} {res : vec2} {newq : List coords}
    {c0 : Nat} (h : Mid maze origin j res newq c0) {p : coords} (hp : maze.valid p = true) :
    ∃ x, res.read p = some x :=
  vec2.read_of_valid h.res_wf (by rw [h.valid_res]; exact hp)

theorem Closed.keeps {maze : vec2} {origin : coords} {j : Nat} {res res1 : vec2}
    {newq : List coords} {c0 : Nat} (h : Mid maze origin j res newq c0) (hk : Keeps maze res res1)
    {f : coords} (hc : Closed maze res f) : Closed maze res1 f := by
  intro nn hnn hv hb
  exact hk.labelled hv (h.read_res hv) (hc nn hnn hv hb)

theorem visit_all_mid {maze : vec2} {origin : coords} {j : Nat} {c0 : Nat} (hwf : maze.wf)
    {f : coords} (hf : maze.valid f = true) (pre : List coords) :
    ∀ (L : List coords) (res : vec2) (newq : List coords), Mid maze origin j res newq c0 →
      res.read f = some (j : Int) → (∀ nn, nn ∈ L → nn ∈ f.neighbors) →
      ∃ res1 newq1, visit_all maze ((j : Int) + 1) L (res, pre ++ newq) = some (res1, pre ++ newq1) ∧
        Mid maze origin j res1 newq1 c0 ∧ Keeps maze res res1 ∧
        (∀ nn, nn ∈ L → maze.valid nn = true → maze.read nn ≠ some 1 →
          res1.read nn ≠ some (-1)) := by
  intro L
  induction L with
  | nil =>
    intro res newq h _ _
    exact ⟨res, newq, rfl, h, Keeps.refl _ _, fun nn hnn => absurd hnn (List.not_mem_nil nn)⟩
  | cons nn rest ih =>
    intro res newq h hfj hL
    obtain ⟨res1, newq1, hv1, hm1, hk1, hc1⟩ :=
      visit_mid hwf h hf hfj (hL nn (List.mem_cons_self nn rest)) pre
    have hfj1 : res1.read f = some (j : Int) := hk1 f j hf hfj (by omega)
    obtain ⟨res2, newq2, hv2, hm2, hk2, hc2⟩ :=
      ih res1 newq1 hm1 hfj1 (fun x hx => hL x (List.mem_cons_of_mem nn hx))
    refine ⟨res2, newq2, ?_, hm2, (show Keeps maze res res1 from hk1).trans hk2, ?_⟩
    · simp only [visit_all, hv1]
      exact hv2
    · intro x hx hxv hxb
      rcases List.mem_cons.1 hx with hxe | hxr
      · subst hxe
        exact hk2.labelled hxv (hm1.read_res hxv) (hc1 hxv hxb)
      · exact hc2 x hxr hxv hxb

theorem fields_loop_mid {maze : vec2} {origin : coords} {j : Nat} {c0 : Nat} (hwf : maze.wf) :
    ∀ (rem : List coords) (res : vec2) (newq : List coords), Mid maze origin j res newq c0 →
      (∀ f, f ∈ rem → maze.valid f = true ∧ res.read f = some (j : Int)) →
      ∃ res1 newq1, fields_loop maze ((j : Int) + 1) rem.length (res, rem ++ newq)
          = some (res1, newq1) ∧
        Mid maze origin j res1 newq1 c0 ∧ Keeps maze res res1 ∧
        (∀ f, f ∈ rem → Closed maze res1 f) := by
  intro rem
  induction rem with
  | nil =>
    intro res newq h _
    exact ⟨res, newq, rfl, h, Keeps.refl _ _, fun f hf => absurd hf (List.not_mem_nil f)⟩
  | cons f rest ih =>
    intro res newq h hrem
    obtain ⟨hfv, hfj⟩ := hrem f (List.mem_cons_self f rest)
    obtain ⟨res1, newq1, hv1, hm1, hk1, hc1⟩ :=
      visit_all_mid hwf hfv (f :: rest) f.neighbors res newq h hfj (fun _ hx => hx)
    have hrest : ∀ g, g ∈ rest → maze.valid g = true ∧ res1.read g = some (j : Int) := by
      intro g hg
      obtain ⟨hgv, hgj⟩ := hrem g (List.mem_cons_of_mem f hg)
      exact ⟨hgv, hk1 g j hgv hgj (by omega)⟩
    obtain ⟨res2, newq2, hv2, hm2, hk2, hc2⟩ := ih res1 newq1 hm1 hrest
    refine ⟨res2, newq2, ?_, hm2, hk1.trans hk2, ?_⟩
    · simp only [List.length_cons, fields_loop, List.cons_append]
      rw [← List.cons_append, hv1]
      simpa using hv2
    · intro g hg
      rcases List.mem_cons.1 hg with hge | hgr
      · subst hge
        exact Closed.keeps hm1 hk2 (fun nn hnn => hc1 nn hnn)
      · exact hc2 g hgr

/-! ## The outer loop of `get_steps_map` -/

theorem Level.toMid {maze : vec2} {origin : coords} {j : Nat} {res : vec2} {q : List coords}
    (h : Level maze origin j res q) : Mid maze origin j res [] (res.data.count (-1)) := by
  refine ⟨h.M_eq, h.N_eq, h.len, ?_, h.old, ?_, ?_, by simp, h.bound⟩
  · intro p x hp hx
    rcases h.range p x hp hx with h1 | h1
    · exact Or.inl h1
    · exact Or.inr ⟨h1.1, by omega⟩
  · intro p hp hx
    rcases h.range p _ hp hx with h1 | h1 <;> omega
  · intro p
    constructor
    · intro hp; exact absurd hp (List.not_mem_nil p)
    · rintro ⟨hp, hx⟩
      rcases h.range p _ hp hx with h1 | h1 <;> omega

theorem Mid.toLevel {maze : vec2} {origin : coords} {j : Nat} {res : vec2} {newq : List coords}
    {c0 : Nat} (ho : maze.valid origin = true) (h : Mid maze origin j res newq c0)
    (hcl : ∀ f, maze.valid f = true → res.read f = some (j : Int) → Closed maze res f) :
    Level maze origin (j + 1) res newq := by
  refine ⟨h.M_eq, h.N_eq, h.len, ?_, ?_, ?_, h.bound⟩
  · intro p x hp hx
    rcases h.range p x hp hx with h1 | h1
    · exact Or.inl h1
    · exact Or.inr ⟨h1.1, by push_cast; omega⟩
  · intro p hp d hd
    rcases Nat.lt_or_ge d (j + 1) with hlt | hge
    · exact h.old p hp d (by omega)
    · have hdj : d = j + 1 := by omega
      subst hdj
      constructor
      · intro hx
        exact h.new p hp (by rw [hx]; push_cast; rfl)
      · intro hmin
        obtain ⟨a, ha, hst⟩ := minReach_pred hmin
        have hav : maze.valid a = true := reach_valid ho ha.1
        have haj : res.read a = some (j : Int) := (h.old a hav j le_rfl).2 ha
        have hne : res.read p ≠ some (-1) := hcl a hav haj p hst.1 hp hst.2.2
        obtain ⟨x, hx⟩ := h.read_res hp
        rcases h.range p x hp hx with h1 | h1
        · subst h1; exact absurd hx hne
        · rcases Int.lt_or_le x ((j : Int) + 1) with h2 | h2
          · exfalso
            have hxn : x = ((x.toNat : Nat) : Int) := by omega
            rw [hxn] at hx
            have := (h.old p hp x.toNat (by omega)).1 hx
            have := minReach_unique this hmin
            omega
          · have : x = ((j + 1 : Nat) : Int) := by push_cast; omega
            rw [hx, this]
  · intro p
    rw [h.newq_iff p]
    push_cast
    rfl

theorem no_minReach_beyond {maze : vec2} {origin : coords} {j : Nat}
    (h0 : ∀ p, ¬ MinReach maze origin j p) : ∀ d, j ≤ d → ∀ p, ¬ MinReach maze origin d p := by
  intro d hd
  induction d with
  | zero =>
    have : j = 0 := by omega
    subst this
    exact h0
  | succ d ih =>
    rcases Nat.lt_or_ge d j with hlt | hge
    · have : j = d + 1 := by omega
      subst this
      exact h0
    · intro p hmin
      obtain ⟨a, ha, _⟩ := minReach_pred hmin
      exact ih hge a ha

theorem Level.toFinal {maze : vec2} {origin : coords} {j : Nat} {res : vec2}
    (ho : maze.valid origin = true) (h : Level maze origin j res []) : Final maze origin res := by
  have h0 : ∀ p, ¬ MinReach maze origin j p := by
    intro p hmin
    have hp : maze.valid p = true := reach_valid ho hmin.1
    have := (h.q_iff p).2 ⟨hp, (h.old p hp j le_rfl).2 hmin⟩
    exact absurd this (List.not_mem_nil p)
  refine ⟨h.M_eq, h.N_eq, h.len, ?_, ?_, ?_⟩
  · intro p x hp hx
    rcases h.range p x hp hx with h1 | h1 <;> omega
  · intro p hp d
    rcases Nat.lt_or_ge j d with hlt | hge
    · constructor
      · intro hx
        rcases h.range p _ hp hx with h1 | h1 <;> omega
      · intro hmin
        exact absurd hmin (no_minReach_beyond h0 d (by omega) p)
    · exact h.old p hp d hge
  · intro p x hp hx
    have := h.bound p x hp hx
    omega

theorem steps_loop_final {maze : vec2} {origin : coords} (hwf : maze.wf)
    (ho : maze.valid origin = true) :
    ∀ (fuel j : Nat) (res : vec2) (q : List coords), Level maze origin j res q →
      (if q = [] then 1 else res.data.count (-1) + 2) ≤ fuel →
      ∃ D, steps_loop maze fuel ((j : Int) + 1) res q = some D ∧ Final maze origin D := by
  intro fuel
  induction fuel with
  | zero =>
    intro j res q _ hf
    split at hf <;> omega
  | succ fuel ih =>
    intro j res q h hf
    by_cases hq : q = []
    · subst hq
      exact ⟨res, by simp [steps_loop], h.toFinal ho⟩
    · rw [if_neg hq] at hf
      obtain ⟨res1, newq1, hl, hm, _, hcl⟩ :=
        fields_loop_mid hwf q res [] h.toMid (fun f hf => (h.q_iff f).1 hf)
      rw [List.append_nil] at hl
      have hlev : Level maze origin (j + 1) res1 newq1 := by
        apply hm.toLevel ho
        intro f hfv hfj
        apply hcl
        rw [h.q_iff]
        refine ⟨hfv, ?_⟩
        have hmin : MinReach maze origin j f := (hm.old f hfv j le_rfl).1 hfj
        exact (h.old f hfv j le_rfl).2 hmin
      have hcnt := hm.cnt
      have hfuel : (if newq1 = [] then 1 else res1.data.count (-1) + 2) ≤ fuel := by
        by_cases hn : newq1 = []
        · rw [if_pos hn]; omega
        · rw [if_neg hn]
          have : 0 < newq1.length := List.length_pos.2 hn
          omega
      obtain ⟨D, hD, hfin⟩ := ih (j + 1) res1 newq1 hlev hfuel
      refine ⟨D, ?_, hfin⟩
      have hqe : q.isEmpty = false := by
        cases q with
        | nil => exact absurd rfl hq
        | cons a l => rfl
      simp only [steps_loop, hqe, hl]
      push_cast at hD
      simpa using hD

/-! ## The field returned by `get_steps_map` -/

theorem vec2.fill_read {M N : Int} {init : Int} {p : coords}
    (hp : (vec2.fill M N init).valid p = true) : (vec2.fill M N init).read p = some init := by
  have h1 := vec2.index_nonneg hp
  have h2 := vec2.index_lt hp
  have h3 : vec2.index (vec2.fill M N init) p = p.m * N + p.n := rfl
  have h4 : (vec2.fill M N init).M * (vec2.fill M N init).N = M * N := rfl
  have h5 : ((vec2.fill M N init).index p).toNat < (M * N).toNat := by omega
  unfold vec2.read
  rw [if_pos h1]
  show (List.replicate (M * N).toNat init)[((vec2.fill M N init).index p).toNat]? = some init
  rw [List.getElem?_replicate, if_pos h5]

theorem vec2.fill_wf (M N : Int) (init : Int) : (vec2.fill M N init).wf := by
  unfold vec2.wf vec2.fill
  simp

theorem vec2.pos_of_valid {v : vec2} {p : coords} (h : v.valid p = true) : 0 < v.M * v.N := by
  rw [vec2.valid_iff] at h
  exact mul_pos (by omega) (by omega)

theorem vec2.not_empty_of_valid {v : vec2} {p : coords} (hwf : v.wf) (h : v.valid p = true) :
    v.empty = false := by
  have h1 := vec2.pos_of_valid h
  unfold vec2.wf at hwf
  unfold vec2.empty
  cases hd : v.data with
  | nil => rw [hd] at hwf; simp at hwf; omega
  | cons a l => rfl

/-- The state before the first round. -/
theorem level_init {maze : vec2} {origin : coords} (ho : maze.valid origin = true) :
    ∃ res, (vec2.fill maze.M maze.N (-1)).write origin 0 = some res ∧
      Level maze origin 0 res [origin] ∧ res.data.count (-1) + 1 = (maze.M * maze.N).toNat := by
  have hpos := vec2.pos_of_valid ho
  have hvf : ∀ p, (vec2.fill maze.M maze.N (-1)).valid p = maze.valid p :=
    fun p => vec2.valid_congr rfl rfl p
  have hof : (vec2.fill maze.M maze.N (-1)).valid origin = true := by rw [hvf]; exact ho
  obtain ⟨r, hw, rM, rN, rlen, rdata, rsame, rother⟩ :=
    vec2.write_of_valid (vec2.fill_wf maze.M maze.N (-1)) hof 0
  have hlen : (vec2.fill maze.M maze.N (-1)).data.length = (maze.M * maze.N).toNat := by
    simp [vec2.fill]
  have hcount : r.data.count (-1) + 1 = (maze.M * maze.N).toNat := by
    rw [rdata, List.count_set_drop (vec2.read_eq_getElem? (vec2.fill_read hof)) (by omega)]
    simp [vec2.fill]
  have hread : ∀ p, maze.valid p = true → p ≠ origin → r.read p = some (-1) := by
    intro p hp hne
    rw [rother p (by rw [hvf]; exact hp) hne]
    exact vec2.fill_read (by rw [hvf]; exact hp)
  refine ⟨r, hw, ⟨rM, rN, by rw [rlen, hlen]; omega, ?_, ?_, ?_, ?_⟩, hcount⟩
  · intro p x hp hx
    by_cases hpo : p = origin
    · subst hpo
      rw [rsame] at hx
      have : (0 : Int) = x := by simpa using hx
      right; omega
    · rw [hread p hp hpo] at hx
      have : (-1 : Int) = x := by simpa using hx
      left; omega
  · intro p hp d hd
    have hd0 : d = 0 := by omega
    subst hd0
    rw [minReach_zero_iff]
    by_cases hpo : p = origin
    · subst hpo
      simp [rsame]
    · rw [hread p hp hpo]
      simp [hpo]
  · intro p
    by_cases hpo : p = origin
    · subst hpo
      simp [rsame, ho]
    · simp [hpo, hread, hread p]
      intro hp
      rw [hread p hp hpo]
      simp
  · intro p x hp hx
    rw [rlen, hlen]
    by_cases hpo : p = origin
    · subst hpo
      rw [rsame] at hx
      have : (0 : Int) = x := by simpa using hx
      omega
    · rw [hread p hp hpo] at hx
      have : (-1 : Int) = x := by simpa using hx
      omega

/-- On a grid with an in-bounds origin `get_steps_map` returns a field, and that field holds
the distance of every cell. -/
theorem get_steps_map_final {maze : vec2} {origin : coords} (hwf : maze.wf)
    (ho : maze.valid origin = true) :
    ∃ D, get_steps_map maze origin = some D ∧ Final maze origin D := by
  obtain ⟨res, hw, hlev, hcount⟩ := level_init ho
  have hne := vec2.not_empty_of_valid hwf ho
  have hfuel : (if [origin] = [] then 1 else res.data.count (-1) + 2) ≤ maze.data.length + 1 := by
    rw [if_neg (by simp)]
    unfold vec2.wf at hwf
    omega
  obtain ⟨D, hD, hfin⟩ := steps_loop_final hwf ho (maze.data.length + 1) 0 res [origin] hlev hfuel
  refine ⟨D, ?_, hfin⟩
  unfold get_steps_map get_steps_map_fuel
  simp only [hne, ho, hw]
  simpa using hD

/-! ## Routes as lists and the distance claims -/

theorem backRoute_iff_chain {maze : vec2} {origin : coords} :
    ∀ (s : List coords) (t : coords), BackRoute maze origin t s ↔
      List.Chain' (flip (step maze)) (t :: s) ∧ (t :: s).getLast? = some origin := by
  intro s
  induction s with
  | nil =>
    intro t
    simp [BackRoute]
  | cons q s ih =>
    intro t
    simp only [BackRoute, ih q, List.chain'_cons, flip, List.getLast?_cons_cons]
    tauto

theorem moves_ok_iff_chain (maze : vec2) :
    ∀ p : List coords, moves_ok maze p ↔ List.Chain' (step maze) p := by
  intro p
  induction p with
  | nil => simp [moves_ok]
  | cons a l ih =>
    cases l with
    | nil => simp [moves_ok]
    | cons b rest =>
      rw [List.chain'_cons, ← ih]
      simp [moves_ok]

theorem isRoute_iff {maze : vec2} {origin t : coords} {p : List coords} :
    IsRoute maze origin t p ↔ ∃ s, p = (t :: s).reverse ∧ BackRoute maze origin t s := by
  unfold IsRoute
  rw [moves_ok_iff_chain]
  constructor
  · rintro ⟨hc, hh, hl⟩
    have h1 : p.reverse.head? = some t := by rw [List.head?_reverse]; exact hl
    cases hr : p.reverse with
    | nil => rw [hr] at h1; simp at h1
    | cons x s =>
      rw [hr] at h1
      have hx : x = t := by simpa using h1
      subst hx
      refine ⟨s, ?_, ?_⟩
      · rw [← hr, List.reverse_reverse]
      · rw [backRoute_iff_chain, ← hr, List.getLast?_reverse]
        refine ⟨?_, hh⟩
        rw [List.chain'_reverse]
        exact hc
  · rintro ⟨s, hp, hb⟩
    rw [backRoute_iff_chain] at hb
    subst hp
    refine ⟨?_, ?_, ?_⟩
    · rw [List.chain'_reverse]; exact hb.1
    · rw [List.head?_reverse]; exact hb.2
    · rw [List.getLast?_reverse]; rfl

theorem reach_iff_route {maze : vec2} {origin c : coords} {n : Nat} :
    Reach maze origin n c ↔ ∃ p, IsRoute maze origin c p ∧ p.length = n + 1 := by
  constructor
  · rintro ⟨s, hs, hb⟩
    exact ⟨(c :: s).reverse, isRoute_iff.2 ⟨s, rfl, hb⟩, by simp [hs]⟩
  · rintro ⟨p, hp, hl⟩
    obtain ⟨s, hs, hb⟩ := isRoute_iff.1 hp
    subst hs
    refine ⟨s, ?_, hb⟩
    simpa using hl

theorem route_reach {maze : vec2} {origin c : coords} {p : List coords}
    (hp : IsRoute maze origin c p) : Reach maze origin (p.length - 1) c := by
  obtain ⟨s, hs, hb⟩ := isRoute_iff.1 hp
  subst hs
  exact ⟨s, by simp, hb⟩

theorem route_length_pos {maze : vec2} {origin c : coords} {p : List coords}
    (hp : IsRoute maze origin c p) : 0 < p.length := by
  obtain ⟨s, hs, _⟩ := isRoute_iff.1 hp
  subst hs
  simp

theorem Final.field_wf {maze : vec2} {origin : coords} {D : vec2} (h : Final maze origin D) : D.wf := by
  unfold vec2.wf
  rw [h.M_eq, h.N_eq, h.len]

theorem Final.valid_field {maze : vec2} {origin : coords} {D : vec2} (h : Final maze origin D)
    (p : coords) : D.valid p = maze.valid p :=
  vec2.valid_congr h.M_eq h.N_eq p

theorem Final.read_field {maze : vec2} {origin : coords} {D : vec2} (h : Final maze origin D)
    {p : coords} (hp : maze.valid p = true) : ∃ x, D.read p = some x :=
  vec2.read_of_valid h.field_wf (by rw [h.valid_field]; exact hp)

/-- A cell of the returned field reads `-1` or its distance. -/
theorem Final.cases {maze : vec2} {origin : coords} {D : vec2} (h : Final maze origin D)
    {p : coords} (hp : maze.valid p = true) :
    D.read p = some (-1) ∨ ∃ d : Nat, D.read p = some (d : Int) ∧ MinReach maze origin d p := by
  obtain ⟨x, hx⟩ := h.read_field hp
  have hr := h.range p x hp hx
  rcases Int.lt_or_le x 0 with h1 | h1
  · left
    have : x = -1 := by omega
    rw [hx, this]
  · right
    have hxn : x = ((x.toNat : Nat) : Int) := by omega
    rw [hxn] at hx
    exact ⟨x.toNat, hx, (h.dist p hp x.toNat).1 hx⟩

theorem Final.of_reach {maze : vec2} {origin : coords} {D : vec2} (h : Final maze origin D)
    (ho : maze.valid origin = true) {c : coords} {n : Nat} (hr : Reach maze origin n c) :
    ∃ d : Nat, d ≤ n ∧ D.read c = some (d : Int) ∧ MinReach maze origin d c := by
  obtain ⟨d, hd, hmin⟩ := exists_minReach hr
  exact ⟨d, hd, (h.dist c (reach_valid ho hr) d).2 hmin, hmin⟩

theorem Final.unreached {maze : vec2} {origin : coords} {D : vec2} (h : Final maze origin D)
    {c : coords} (hc : maze.valid c = true) (hn : ∀ n, ¬ Reach maze origin n c) :
    D.read c = some (-1) := by
  rcases h.cases hc with h1 | ⟨d, _, hmin⟩
  · exact h1
  · exact absurd hmin.1 (hn d)

theorem Final.unreached_iff {maze : vec2} {origin : coords} {D : vec2} (h : Final maze origin D)
    {c : coords} (hc : maze.valid c = true) :
    D.read c = some (-1) ↔ ∀ n, ¬ Reach maze origin n c := by
  constructor
  · intro h1 n hr
    obtain ⟨d, hd, hmin⟩ := exists_minReach hr
    have := (h.dist c hc d).2 hmin
    rw [h1] at this
    simp at this
  · exact h.unreached hc

/-- C1: on a grid with an in-bounds origin, for every in-bounds cell `c` that a route from
the origin reaches, `get_steps_map` returns a field, and its value at `c` is the minimum
number of moves of such a route: some route to `c` has exactly that many moves (one node
more than moves) and no route to `c` has fewer. -/
theorem get_steps_map_min_moves (maze : vec2) (origin c : coords) (hwf : maze.wf)
    (ho : maze.valid origin = true) (hc : maze.valid c = true)
    (hr : ∃ p, IsRoute maze origin c p) :
    ∃ (D : vec2) (d : Nat) (p : List coords), get_steps_map maze origin = some D ∧
      D.read c = some (d : Int) ∧ IsRoute maze origin c p ∧ p.length = d + 1 ∧
      ∀ p', IsRoute maze origin c p' → d + 1 ≤ p'.length := by
  obtain ⟨D, hD, hfin⟩ := get_steps_map_final hwf ho
  obtain ⟨p0, hp0⟩ := hr
  obtain ⟨d, _, hread, hmin⟩ := hfin.of_reach ho (route_reach hp0)
  obtain ⟨p, hp, hlen⟩ := reach_iff_route.1 hmin.1
  refine ⟨D, d, p, hD, hread, hp, hlen, ?_⟩
  intro p' hp'
  have h1 := route_reach hp'
  have h2 := route_length_pos hp'
  by_contra hlt
  exact hmin.2 (p'.length - 1) (by omega) h1

/-- C1 at a concrete input: the 2x2 grid with a blocked cell at (0,1), origin (0,0), cell (1,1). -/
theorem get_steps_map_min_moves_witness :
    (⟨2, 2, [0, 1, 0, 0]⟩ : vec2).wf ∧ (⟨2, 2, [0, 1, 0, 0]⟩ : vec2).valid ⟨0, 0⟩ = true ∧
    (⟨2, 2, [0, 1, 0, 0]⟩ : vec2).valid ⟨1, 1⟩ = true ∧
    (∃ p, IsRoute ⟨2, 2, [0, 1, 0, 0]⟩ ⟨0, 0⟩ ⟨1, 1⟩ p) ∧
    ∃ (D : vec2) (d : Nat) (p : List coords),
      get_steps_map ⟨2, 2, [0, 1, 0, 0]⟩ ⟨0, 0⟩ = some D ∧
      D.read ⟨1, 1⟩ = some (d : Int) ∧ IsRoute ⟨2, 2, [0, 1, 0, 0]⟩ ⟨0, 0⟩ ⟨1, 1⟩ p ∧
      p.length = d + 1 ∧
      ∀ p', IsRoute ⟨2, 2, [0, 1, 0, 0]⟩ ⟨0, 0⟩ ⟨1, 1⟩ p' → d + 1 ≤ p'.length :=
  ⟨by decide, by decide, by decide, ⟨[⟨0, 0⟩, ⟨1, 0⟩, ⟨1, 1⟩], by decide⟩,
    get_steps_map_min_moves ⟨2, 2, [0, 1, 0, 0]⟩ ⟨0, 0⟩ ⟨1, 1⟩ (by decide) (by decide) (by decide)
      ⟨[⟨0, 0⟩, ⟨1, 0⟩, ⟨1, 1⟩], by decide⟩⟩

/-! ## The scan of `recv` -/

theorem vec2.valid_m_ne {v : vec2} {p : coords} (h : v.valid p = true) : p.m ≠ -1 := by
  rw [vec2.valid_iff] at h
  omega

theorem recv_scan_spec {D : vec2} (hwf : D.wf)
    (rec : List coords → List (List coords) → Option (List (List coords)))
    (path : List coords) (n : Nat) (branch : coords → List (List coords))
    (hrec : ∀ q res, D.valid q = true → D.read q = some (n : Int) →
      rec (path ++ [q]) res = some (res ++ branch q)) :
    ∀ (L : List coords) (np : coords) (res : List (List coords)),
      recv_scan D rec path ((n : Int) + 1) L np res =
        some (if np.m = -1 then
            (match L.filter (fun nn => D.valid nn && decide (D.read nn = some (n : Int))) with
              | [] => (np, res)
              | p :: ps => (p, res ++ ps.flatMap branch))
          else
            (np, res ++ (L.filter
              (fun nn => D.valid nn && decide (D.read nn = some (n : Int)))).flatMap branch)) := by
  intro L
  induction L with
  | nil =>
    intro np res
    by_cases hnp : np.m = -1 <;> simp [recv_scan, hnp]
  | cons nn rest ih =>
    intro np res
    by_cases hv : D.valid nn = true
    swap
    · have hv2 : D.valid nn = false := by simpa using hv
      rw [recv_scan, if_neg hv, ih np res]
      simp [List.filter_cons, hv2]
    obtain ⟨w, hw⟩ := vec2.read_of_valid hwf hv
    by_cases hwn : w = (n : Int)
    swap
    · have hne : ¬ (w = (n : Int) + 1 - 1) := by omega
      rw [recv_scan, if_pos hv]
      simp only [hw, if_neg hne]
      rw [ih np res]
      simp [List.filter_cons, hv, hw, hwn]
    rw [hwn] at hw
    rw [recv_scan, if_pos hv]
    simp only [hw]
    rw [if_pos (by omega)]
    by_cases hnp : np.m = -1
    · rw [if_pos hnp, ih nn res, if_neg (vec2.valid_m_ne hv)]
      simp [List.filter_cons, hv, hw, hnp]
    · rw [if_neg hnp, hrec nn res hv hw]
      simp only []
      rw [ih np (res ++ branch nn)]
      simp [List.filter_cons, hv, hw, hnp, List.append_assoc]

/-! ## The recursion of `recv` -/

theorem mem_preds {D : vec2} {t q : coords} {n : Nat} :
    q ∈ preds D t n ↔ q ∈ t.neighbors ∧ D.valid q = true ∧ D.read q = some (n : Int) := by
  simp [preds, List.mem_filter]

theorem recv_spec {D : vec2} (hwf : D.wf) (hpred : HasPred D) :
    ∀ (n fuel : Nat) (path : List coords) (t : coords) (res : List (List coords)),
      n < fuel → path.getLast? = some t → D.valid t = true → D.read t = some (n : Int) →
      recv D fuel path res = some (res ++ (ext D n t).map (fun s => path ++ s)) := by
  intro n
  induction n with
  | zero =>
    intro fuel path t res hf hl _ hr
    obtain ⟨f, rfl⟩ : ∃ f, fuel = f + 1 := ⟨fuel - 1, by omega⟩
    simp only [recv, hl]
    have hr0 : D.read t = some 0 := hr
    simp [hr0, ext]
  | succ n ih =>
    intro fuel path t res hf hl hv hr
    obtain ⟨f, rfl⟩ : ∃ f, fuel = f + 1 := ⟨fuel - 1, by omega⟩
    have hnf : n < f := by omega
    have hr1 : D.read t = some ((n : Int) + 1) := by rw [hr]; push_cast; rfl
    have hne : ¬ ((n : Int) + 1 = 0) := by omega
    have hrec : ∀ q r, D.valid q = true → D.read q = some (n : Int) →
        (fun p r => recv D f p r) (path ++ [q]) r
          = some (r ++ (ext D n q).map (fun s => path ++ q :: s)) := by
      intro q r hq hqr
      have := ih f (path ++ [q]) q r hnf (List.getLast?_concat path) hq hqr
      simpa [List.append_assoc] using this
    have hscan := recv_scan_spec hwf (fun p r => recv D f p r) path n
      (fun q => (ext D n q).map (fun s => path ++ q :: s)) hrec t.neighbors ⟨-1, -1⟩ res
    simp only [recv, hl, hr1, if_neg hne, hscan]
    have hp : preds D t n ≠ [] := hpred t n hv hr1
    have hfil : List.filter (fun nn => D.valid nn && decide (D.read nn = some (n : Int)))
        t.neighbors = preds D t n := rfl
    rw [hfil]
    cases hps : preds D t n with
    | nil => exact absurd hps hp
    | cons p ps =>
      have hpm : p ∈ preds D t n := by rw [hps]; exact List.mem_cons_self p ps
      obtain ⟨_, hpv, hpr⟩ := mem_preds.1 hpm
      simp only [if_true]
      rw [ih f (path ++ [p]) p _ hnf (List.getLast?_concat path) hpv hpr]
      simp [ext, hps, List.map_flatMap, List.flatMap_append, List.append_assoc]
      rfl

/-! ## The enumerated paths -/

theorem coords.mem_neighbors_iff {a b : coords} :
    b ∈ a.neighbors ↔ (b.m = a.m - 1 ∧ b.n = a.n) ∨ (b.m = a.m + 1 ∧ b.n = a.n) ∨
      (b.m = a.m ∧ b.n = a.n - 1) ∨ (b.m = a.m ∧ b.n = a.n + 1) := by
  cases a; cases b
  simp [coords.neighbors, coords.up, coords.down, coords.left, coords.right]

theorem coords.mem_neighbors_symm {a b : coords} (h : b ∈ a.neighbors) : a ∈ b.neighbors := by
  rw [coords.mem_neighbors_iff] at h ⊢
  omega

theorem coords.neighbors_nodup (a : coords) : a.neighbors.Nodup := by
  cases a
  simp [coords.neighbors, coords.up, coords.down, coords.left, coords.right]
  omega

theorem preds_nodup (D : vec2) (t : coords) (n : Nat) : (preds D t n).Nodup :=
  (coords.neighbors_nodup t).filter _

theorem Final.hasPred {maze : vec2} {origin : coords} {D : vec2} (h : Final maze origin D)
    (ho : maze.valid origin = true) : HasPred D := by
  intro t n ht hr
  rw [h.valid_field] at ht
  have hr1 : D.read t = some (((n + 1 : Nat)) : Int) := by rw [hr]; push_cast; rfl
  have hmin := (h.dist t ht (n + 1)).1 hr1
  obtain ⟨a, ha, hst⟩ := minReach_pred hmin
  have hav : maze.valid a = true := reach_valid ho ha.1
  have hmem : a ∈ preds D t n :=
    mem_preds.2 ⟨coords.mem_neighbors_symm hst.1, by rw [h.valid_field]; exact hav,
      (h.dist a hav n).2 ha⟩
  exact List.ne_nil_of_mem hmem

theorem ext_succ (D : vec2) (n : Nat) (t : coords) :
    ext D (n + 1) t =
      match preds D t n with
      | [] => []
      | p :: ps => (ps ++ [p]).flatMap (fun q => (ext D n q).map (fun s => q :: s)) := rfl

theorem mem_ext_succ {D : vec2} {n : Nat} {t : coords} {s : List coords} :
    s ∈ ext D (n + 1) t ↔ ∃ q s1, q ∈ preds D t n ∧ s1 ∈ ext D n q ∧ s = q :: s1 := by
  rw [ext_succ]
  cases hps : preds D t n with
  | nil => simp
  | cons p ps =>
    simp only [List.mem_flatMap, List.mem_append, List.mem_singleton, List.mem_map,
      List.mem_cons, List.not_mem_nil, or_false]
    constructor
    · rintro ⟨q, hq, s1, hs1, rfl⟩
      exact ⟨q, s1, hq.symm, hs1, rfl⟩
    · rintro ⟨q, s1, hq, hs1, rfl⟩
      exact ⟨q, hq.symm, s1, hs1, rfl⟩

/-- The continuations enumerated from a cell labelled `n` are the routes of `n` moves read
backwards from that cell. -/
theorem mem_ext_iff {maze : vec2} {origin : coords} {D : vec2} (h : Final maze origin D)
    (ho : maze.valid origin = true) :
    ∀ (n : Nat) (t : coords) (s : List coords), maze.valid t = true →
      D.read t = some (n : Int) →
      (s ∈ ext D n t ↔ s.length = n ∧ BackRoute maze origin t s) := by
  intro n
  induction n with
  | zero =>
    intro t s ht hr
    have hto : t = origin := minReach_zero_iff.1 ((h.dist t ht 0).1 hr)
    simp only [ext, List.mem_singleton]
    constructor
    · rintro rfl
      exact ⟨rfl, hto⟩
    · rintro ⟨hl, _⟩
      exact List.length_eq_zero.1 hl
  | succ n ih =>
    intro t s ht hr
    have hmin : MinReach maze origin (n + 1) t := (h.dist t ht (n + 1)).1 hr
    rw [mem_ext_succ]
    constructor
    · rintro ⟨q, s1, hq, hs1, rfl⟩
      obtain ⟨hqn, hqv, hqr⟩ := mem_preds.1 hq
      rw [h.valid_field] at hqv
      obtain ⟨hl, hb⟩ := (ih q s1 hqv hqr).1 hs1
      refine ⟨by simp [hl], ⟨coords.mem_neighbors_symm hqn, ht, reach_not_blocked hmin.1⟩, hb⟩
    · rintro ⟨hl, hb⟩
      cases s with
      | nil => simp at hl
      | cons q s1 =>
        obtain ⟨hst, hb1⟩ := hb
        have hl1 : s1.length = n := by simpa using hl
        have hreach : Reach maze origin n q := ⟨s1, hl1, hb1⟩
        have hqv : maze.valid q = true := reach_valid ho hreach
        obtain ⟨d, hd, hqr, hqmin⟩ := h.of_reach ho hreach
        have hdn : d = n := by
          by_contra hne
          exact hmin.2 (d + 1) (by omega) (reach_succ_iff.2 ⟨q, hqmin.1, hst⟩)
        subst hdn
        refine ⟨q, s1, mem_preds.2 ⟨coords.mem_neighbors_symm hst.1, ?_, hqr⟩, ?_, rfl⟩
        · rw [h.valid_field]; exact hqv
        · exact (ih q s1 hqv hqr).2 ⟨hl1, hb1⟩

theorem ext_nodup (D : vec2) : ∀ (n : Nat) (t : coords), (ext D n t).Nodup := by
  intro n
  induction n with
  | zero => intro t; simp [ext]
  | succ n ih =>
    intro t
    rw [ext_succ]
    cases hps : preds D t n with
    | nil => simp
    | cons p ps =>
      have hnd : (ps ++ [p]).Nodup := by
        have := preds_nodup D t n
        rw [hps] at this
        exact (List.perm_append_singleton p ps).nodup_iff.2 this
      simp only []
      rw [List.nodup_flatMap]
      refine ⟨?_, ?_⟩
      · intro q _
        exact (ih q).map (fun a b hab => by simpa using hab)
      · refine hnd.pairwise_of_forall_ne ?_
        intro a _ b _ hab
        simp only [Function.onFun, List.Disjoint, List.mem_map]
        rintro s ⟨s1, _, rfl⟩ ⟨s2, _, h2⟩
        apply hab
        simp at h2
        exact h2.1.symm

theorem reverse_loop_eq (res : List (List coords)) :
    reverse_loop res = if res.length % 2 = 0 then res else res.reverse := by
  have key : ∀ (l : List (List coords)) (acc : List (List coords)),
      l.foldl (fun acc _ => acc.reverse) acc = if l.length % 2 = 0 then acc else acc.reverse := by
    intro l
    induction l with
    | nil => intro acc; simp
    | cons x xs ih =>
      intro acc
      rw [List.foldl_cons, ih]
      by_cases hx : xs.length % 2 = 0
      · have : (x :: xs).length % 2 ≠ 0 := by simp; omega
        rw [if_pos hx, if_neg this]
      · have : (x :: xs).length % 2 = 0 := by simp; omega
        rw [if_neg hx, if_pos this, List.reverse_reverse]
  exact key res res

/-! ## The paths returned by `find_shortest_paths` -/

theorem find_shortest_paths_empty {map : vec2} (finish : coords) (h : map.empty = true) :
    find_shortest_paths map finish = some [] := by
  simp [find_shortest_paths, find_shortest_paths_fuel, h]

theorem find_shortest_paths_unreached {map : vec2} {finish : coords}
    (h : map.read finish = some (-1)) : find_shortest_paths map finish = some [] := by
  unfold find_shortest_paths find_shortest_paths_fuel
  split
  · rfl
  · simp [h]

theorem find_shortest_paths_reached {maze : vec2} {origin : coords} {D : vec2}
    (h : Final maze origin D) (ho : maze.valid origin = true) {dest : coords}
    (hd : maze.valid dest = true) {d : Nat} (hr : D.read dest = some (d : Int)) :
    find_shortest_paths D dest = some (reverse_loop (collected D d dest)) := by
  have hdv : D.valid dest = true := by rw [h.valid_field]; exact hd
  have hne : D.empty = false := vec2.not_empty_of_valid h.field_wf hdv
  have hb := h.bound dest d hd hr
  have hfuel : d < D.data.length + 1 := by omega
  have hrecv := recv_spec h.field_wf (h.hasPred ho) d (D.data.length + 1) [dest] dest [] hfuel rfl hdv hr
  have hd1 : ¬ ((d : Int) = -1) := by omega
  unfold find_shortest_paths find_shortest_paths_fuel
  simp only [hne, hr, if_neg hd1, hrecv]
  simp [collected]

theorem mem_reverse_loop {res : List (List coords)} {p : List coords} :
    p ∈ reverse_loop res ↔ p ∈ res := by
  rw [reverse_loop_eq]
  split <;> simp

theorem length_reverse_loop (res : List (List coords)) :
    (reverse_loop res).length = res.length := by
  rw [reverse_loop_eq]
  split <;> simp

theorem nodup_reverse_loop {res : List (List coords)} :
    (reverse_loop res).Nodup ↔ res.Nodup := by
  rw [reverse_loop_eq]
  split
  · rfl
  · exact List.nodup_reverse

theorem mem_collected_iff {maze : vec2} {origin : coords} {D : vec2} (h : Final maze origin D)
    (ho : maze.valid origin = true) {dest : coords} (hd : maze.valid dest = true) {d : Nat}
    (hr : D.read dest = some (d : Int)) {p : List coords} :
    p ∈ collected D d dest ↔
      ∃ s, p = dest :: s ∧ s.length = d ∧ BackRoute maze origin dest s := by
  unfold collected
  rw [List.mem_map]
  constructor
  · rintro ⟨s, hs, rfl⟩
    exact ⟨s, rfl, (mem_ext_iff h ho d dest s hd hr).1 hs⟩
  · rintro ⟨s, rfl, hs⟩
    exact ⟨s, (mem_ext_iff h ho d dest s hd hr).2 hs, rfl⟩

theorem collected_nodup (D : vec2) (d : Nat) (dest : coords) : (collected D d dest).Nodup :=
  (ext_nodup D d dest).map (fun a b hab => by simpa using hab)

theorem collected_ne_nil {maze : vec2} {origin : coords} {D : vec2} (h : Final maze origin D)
    (ho : maze.valid origin = true) {dest : coords} (hd : maze.valid dest = true) {d : Nat}
    (hr : D.read dest = some (d : Int)) : collected D d dest ≠ [] := by
  obtain ⟨s, hl, hb⟩ := ((h.dist dest hd d).1 hr).1
  exact List.ne_nil_of_mem ((mem_collected_iff h ho hd hr).2 ⟨s, rfl, hl, hb⟩)

theorem shortest_iff {maze : vec2} {origin : coords} {D : vec2} (h : Final maze origin D)
    {dest : coords} (hd : maze.valid dest = true) {d : Nat}
    (hr : D.read dest = some (d : Int)) {p : List coords} :
    IsShortestRoute maze origin dest p ↔
      ∃ s, p = (dest :: s).reverse ∧ s.length = d ∧ BackRoute maze origin dest s := by
  have hmin : MinReach maze origin d dest := (h.dist dest hd d).1 hr
  constructor
  · rintro ⟨hp, hle⟩
    obtain ⟨s, hs, hb⟩ := isRoute_iff.1 hp
    refine ⟨s, hs, ?_, hb⟩
    obtain ⟨p0, hp0, hl0⟩ := reach_iff_route.1 hmin.1
    have h1 := hle p0 hp0
    have h2 : p.length = s.length + 1 := by rw [hs]; simp
    have h3 : ¬ s.length < d := fun hlt => hmin.2 s.length hlt ⟨s, rfl, hb⟩
    omega
  · rintro ⟨s, hs, hl, hb⟩
    refine ⟨isRoute_iff.2 ⟨s, hs, hb⟩, ?_⟩
    intro p1 hp1
    have h1 := route_reach hp1
    have h2 := route_length_pos hp1
    have h3 : p.length = d + 1 := by rw [hs]; simp [hl]
    by_contra hlt
    exact hmin.2 (p1.length - 1) (by omega) h1

theorem no_route_of_unreached {maze : vec2} {origin : coords} {D : vec2}
    (h : Final maze origin D) {dest : coords} (hd : maze.valid dest = true)
    (hr : D.read dest = some (-1)) (p : List coords) : ¬ IsRoute maze origin dest p := by
  intro hp
  exact (h.unreached_iff hd).1 hr _ (route_reach hp)

/-- C3: on a grid with an in-bounds origin and an in-bounds destination, `find_shortest_paths`
on the field of `get_steps_map` returns as many paths as there are distinct shortest routes
from the origin to the destination: these routes form a finite set `S`, and the number of
returned paths is the cardinality of `S` (both are zero when no route reaches the
destination). -/
theorem find_shortest_paths_count (maze : vec2) (origin dest : coords) (hwf : maze.wf)
    (ho : maze.valid origin = true) (hd : maze.valid dest = true) :
    ∃ (D : vec2) (ps : List (List coords)) (S : Finset (List coords)),
      get_steps_map maze origin = some D ∧ find_shortest_paths D dest = some ps ∧
      (∀ p, p ∈ S ↔ IsShortestRoute maze origin dest p) ∧ ps.length = S.card := by
  obtain ⟨D, hD, hfin⟩ := get_steps_map_final hwf ho
  rcases hfin.cases hd with hr | ⟨d, hr, _⟩
  · refine ⟨D, [], ∅, hD, find_shortest_paths_unreached hr, ?_, rfl⟩
    intro p
    constructor
    · intro hp; exact absurd hp (Finset.not_mem_empty p)
    · intro hp; exact absurd hp.1 (no_route_of_unreached hfin hd hr p)
  · refine ⟨D, reverse_loop (collected D d dest),
      ((collected D d dest).map List.reverse).toFinset, hD,
      find_shortest_paths_reached hfin ho hd hr, ?_, ?_⟩
    · intro p
      rw [List.mem_toFinset, List.mem_map, shortest_iff hfin hd hr]
      constructor
      · rintro ⟨q, hq, rfl⟩
        obtain ⟨s, rfl, hs⟩ := (mem_collected_iff hfin ho hd hr).1 hq
        exact ⟨s, rfl, hs⟩
      · rintro ⟨s, rfl, hs⟩
        exact ⟨dest :: s, (mem_collected_iff hfin ho hd hr).2 ⟨s, rfl, hs⟩, rfl⟩
    · rw [length_reverse_loop, List.toFinset_card_of_nodup, List.length_map]
      exact (collected_nodup D d dest).map List.reverse_injective

/-- C3 at a concrete input: the obstacle-free 2x2 grid, origin (0,0), destination (1,1). -/
theorem find_shortest_paths_count_witness :
    (⟨2, 2, [2, 0, 0, 3]⟩ : vec2).wf ∧ (⟨2, 2, [2, 0, 0, 3]⟩ : vec2).valid ⟨0, 0⟩ = true ∧
    (⟨2, 2, [2, 0, 0, 3]⟩ : vec2).valid ⟨1, 1⟩ = true ∧
    ∃ (D : vec2) (ps : List (List coords)) (S : Finset (List coords)),
      get_steps_map ⟨2, 2, [2, 0, 0, 3]⟩ ⟨0, 0⟩ = some D ∧
      find_shortest_paths D ⟨1, 1⟩ = some ps ∧
      (∀ p, p ∈ S ↔ IsShortestRoute ⟨2, 2, [2, 0, 0, 3]⟩ ⟨0, 0⟩ ⟨1, 1⟩ p) ∧
      ps.length = S.card :=
  ⟨by decide, by decide, by decide,
    find_shortest_paths_count ⟨2, 2, [2, 0, 0, 3]⟩ ⟨0, 0⟩ ⟨1, 1⟩ (by decide) (by decide)
      (by decide)⟩

/-! ## Claims about the returned field and paths -/

theorem unit_step_of_mem_neighbors {a b : coords} (h : b ∈ a.neighbors) : unit_step b a := by
  rw [coords.mem_neighbors_iff] at h
  unfold unit_step
  omega

theorem backRoute_head {maze : vec2} {origin : coords} :
    ∀ (s : List coords) (t : coords), BackRoute maze origin t s →
      t = origin ∨ (maze.valid t = true ∧ maze.read t ≠ some 1) := by
  intro s t h
  cases s with
  | nil => exact Or.inl h
  | cons q s => exact Or.inr h.1.2

/-- A cell other than the origin whose four neighbours are all out of bounds, blocked or
cut off themselves cannot be entered. -/
theorem no_route_of_walled {maze : vec2} {origin c : coords} (hne : c ≠ origin)
    (hw : ∀ q, q ∈ c.neighbors → q ≠ origin ∧ (maze.valid q = false ∨ maze.read q = some 1)) :
    ¬ ∃ p, IsRoute maze origin c p := by
  rintro ⟨p, hp⟩
  obtain ⟨s, _, hb⟩ := isRoute_iff.1 hp
  cases s with
  | nil => exact hne hb
  | cons q s =>
    obtain ⟨hst, hb1⟩ := hb
    obtain ⟨h1, h2⟩ := hw q (coords.mem_neighbors_symm hst.1)
    rcases backRoute_head s q hb1 with h3 | ⟨h3, h4⟩
    · exact h1 h3
    · rcases h2 with h2 | h2
      · rw [h3] at h2; exact absurd h2 (by simp)
      · exact h4 h2

theorem backRoute_adjacent {maze : vec2} {origin : coords} (ho : maze.valid origin = true) :
    ∀ (s : List coords) (t : coords), maze.valid t = true → BackRoute maze origin t s →
      List.Chain' (fun a b => unit_step a b ∧ maze.valid a = true ∧ maze.valid b = true)
        (t :: s) := by
  intro s
  induction s with
  | nil => intro t _ _; simp
  | cons q s ih =>
    intro t ht hb
    have hq : maze.valid q = true := reach_valid ho ⟨s, rfl, hb.2⟩
    rw [List.chain'_cons]
    exact ⟨⟨unit_step_of_mem_neighbors hb.1.1, ht, hq⟩, ih q hq hb.2⟩

/-- C4: on a grid with an in-bounds origin, every in-bounds cell that no route from the origin
reaches reads `-1` in the field returned by `get_steps_map`. -/
theorem get_steps_map_unreached (maze : vec2) (origin c : coords) (hwf : maze.wf)
    (ho : maze.valid origin = true) (hc : maze.valid c = true)
    (hn : ¬ ∃ p, IsRoute maze origin c p) :
    ∃ D, get_steps_map maze origin = some D ∧ D.read c = some (-1) := by
  obtain ⟨D, hD, hfin⟩ := get_steps_map_final hwf ho
  refine ⟨D, hD, hfin.unreached hc ?_⟩
  intro n hr
  obtain ⟨p, hp, _⟩ := reach_iff_route.1 hr
  exact hn ⟨p, hp⟩

/-- C4 at a concrete input: the 1x3 grid `[0,1,0]`, origin (0,0); the free cell (0,2) lies
behind the wall. -/
theorem get_steps_map_unreached_witness :
    (⟨1, 3, [0, 1, 0]⟩ : vec2).wf ∧ (⟨1, 3, [0, 1, 0]⟩ : vec2).valid ⟨0, 0⟩ = true ∧
    (⟨1, 3, [0, 1, 0]⟩ : vec2).valid ⟨0, 2⟩ = true ∧
    (¬ ∃ p, IsRoute ⟨1, 3, [0, 1, 0]⟩ ⟨0, 0⟩ ⟨0, 2⟩ p) ∧
    ∃ D, get_steps_map ⟨1, 3, [0, 1, 0]⟩ ⟨0, 0⟩ = some D ∧ D.read ⟨0, 2⟩ = some (-1) :=
  ⟨by decide, by decide, by decide, no_route_of_walled (by decide) (by decide),
    get_steps_map_unreached ⟨1, 3, [0, 1, 0]⟩ ⟨0, 0⟩ ⟨0, 2⟩ (by decide) (by decide) (by decide)
      (no_route_of_walled (by decide) (by decide))⟩

/-- C5, counterexample: on the 1x1 grid whose only cell is labelled blocked (1) and is the
origin, `get_steps_map` returns the field `[0]`, so a blocked cell reads 0 and not `-1`. -/
theorem blocked_origin_reads_zero :
    (⟨1, 1, [1]⟩ : vec2).wf ∧ (⟨1, 1, [1]⟩ : vec2).empty = false ∧
    (⟨1, 1, [1]⟩ : vec2).valid ⟨0, 0⟩ = true ∧
    (⟨1, 1, [1]⟩ : vec2).read ⟨0, 0⟩ = some 1 ∧
    get_steps_map ⟨1, 1, [1]⟩ ⟨0, 0⟩ = some ⟨1, 1, [0]⟩ ∧
    (⟨1, 1, [0]⟩ : vec2).read ⟨0, 0⟩ = some 0 := by
  decide

/-- C5, amended: on a grid with an in-bounds origin, the field returned by `get_steps_map`
reads 0 at the origin whatever the label of the origin, and reads `-1` at every in-bounds
cell labelled blocked (1) other than the origin. -/
theorem get_steps_map_blocked (maze : vec2) (origin : coords) (hwf : maze.wf)
    (ho : maze.valid origin = true) :
    ∃ D, get_steps_map maze origin = some D ∧ D.read origin = some 0 ∧
      ∀ c, maze.valid c = true → maze.read c = some 1 → c ≠ origin →
        D.read c = some (-1) := by
  obtain ⟨D, hD, hfin⟩ := get_steps_map_final hwf ho
  refine ⟨D, hD, (hfin.dist origin ho 0).2 (minReach_zero_iff.2 rfl), ?_⟩
  intro c hc hb hne
  refine hfin.unreached hc ?_
  intro n hr
  cases n with
  | zero => exact hne (reach_zero_iff.1 hr)
  | succ n => exact reach_not_blocked hr hb

/-- C5 amended, at a concrete input: the 2x2 grid `[1,1,0,3]` with the blocked cell (0,0) as
origin; the other blocked cell is (0,1). -/
theorem get_steps_map_blocked_witness :
    (⟨2, 2, [1, 1, 0, 3]⟩ : vec2).wf ∧ (⟨2, 2, [1, 1, 0, 3]⟩ : vec2).valid ⟨0, 0⟩ = true ∧
    (⟨2, 2, [1, 1, 0, 3]⟩ : vec2).read ⟨0, 0⟩ = some 1 ∧
    (⟨2, 2, [1, 1, 0, 3]⟩ : vec2).valid ⟨0, 1⟩ = true ∧
    (⟨2, 2, [1, 1, 0, 3]⟩ : vec2).read ⟨0, 1⟩ = some 1 ∧ (⟨0, 1⟩ : coords) ≠ ⟨0, 0⟩ ∧
    ∃ D, get_steps_map ⟨2, 2, [1, 1, 0, 3]⟩ ⟨0, 0⟩ = some D ∧ D.read ⟨0, 0⟩ = some 0 ∧
      ∀ c, (⟨2, 2, [1, 1, 0, 3]⟩ : vec2).valid c = true →
        (⟨2, 2, [1, 1, 0, 3]⟩ : vec2).read c = some 1 → c ≠ ⟨0, 0⟩ → D.read c = some (-1) :=
  ⟨by decide, by decide, by decide, by decide, by decide, by decide,
    get_steps_map_blocked ⟨2, 2, [1, 1, 0, 3]⟩ ⟨0, 0⟩ (by decide) (by decide)⟩

/-- C6: for an in-bounds origin and an in-bounds destination that a route reaches,
`find_shortest_paths` on the field `D` of `get_steps_map` returns at least one path, and
every returned path has `D[destination] + 1` nodes. -/
theorem find_shortest_paths_node_count (maze : vec2) (origin dest : coords) (hwf : maze.wf)
    (ho : maze.valid origin = true) (hd : maze.valid dest = true)
    (hr : ∃ p, IsRoute maze origin dest p) :
    ∃ (D : vec2) (ps : List (List coords)) (d : Nat),
      get_steps_map maze origin = some D ∧ find_shortest_paths D dest = some ps ∧
      D.read dest = some (d : Int) ∧ ps ≠ [] ∧ ∀ path, path ∈ ps → path.length = d + 1 := by
  obtain ⟨D, hD, hfin⟩ := get_steps_map_final hwf ho
  obtain ⟨p0, hp0⟩ := hr
  obtain ⟨d, _, hread, _⟩ := hfin.of_reach ho (route_reach hp0)
  refine ⟨D, reverse_loop (collected D d dest), d, hD,
    find_shortest_paths_reached hfin ho hd hread, hread, ?_, ?_⟩
  · intro hnil
    have h1 := length_reverse_loop (collected D d dest)
    rw [hnil] at h1
    exact collected_ne_nil hfin ho hd hread (List.length_eq_zero.1 h1.symm)
  · intro path hpath
    obtain ⟨s, rfl, hl, _⟩ := (mem_collected_iff hfin ho hd hread).1 (mem_reverse_loop.1 hpath)
    simp [hl]

/-- C6 at a concrete input: the obstacle-free 2x2 grid, origin (0,0), destination (1,1). -/
theorem find_shortest_paths_node_count_witness :
    (⟨2, 2, [2, 0, 0, 3]⟩ : vec2).wf ∧ (⟨2, 2, [2, 0, 0, 3]⟩ : vec2).valid ⟨0, 0⟩ = true ∧
    (⟨2, 2, [2, 0, 0, 3]⟩ : vec2).valid ⟨1, 1⟩ = true ∧
    (∃ p, IsRoute ⟨2, 2, [2, 0, 0, 3]⟩ ⟨0, 0⟩ ⟨1, 1⟩ p) ∧
    ∃ (D : vec2) (ps : List (List coords)) (d : Nat),
      get_steps_map ⟨2, 2, [2, 0, 0, 3]⟩ ⟨0, 0⟩ = some D ∧
      find_shortest_paths D ⟨1, 1⟩ = some ps ∧
      D.read ⟨1, 1⟩ = some (d : Int) ∧ ps ≠ [] ∧ ∀ path, path ∈ ps → path.length = d + 1 :=
  ⟨by decide, by decide, by decide, ⟨[⟨0, 0⟩, ⟨0, 1⟩, ⟨1, 1⟩], by decide⟩,
    find_shortest_paths_node_count ⟨2, 2, [2, 0, 0, 3]⟩ ⟨0, 0⟩ ⟨1, 1⟩ (by decide) (by decide)
      (by decide) ⟨[⟨0, 0⟩, ⟨0, 1⟩, ⟨1, 1⟩], by decide⟩⟩

/-- C7: for an in-bounds origin and an in-bounds destination, in every path returned by
`find_shortest_paths` on the field of `get_steps_map` each consecutive pair of coordinates
differs by one unit step along exactly one axis, and both coordinates are in bounds. -/
theorem find_shortest_paths_connected (maze : vec2) (origin dest : coords) (hwf : maze.wf)
    (ho : maze.valid origin = true) (hd : maze.valid dest = true) :
    ∃ (D : vec2) (ps : List (List coords)),
      get_steps_map maze origin = some D ∧ find_shortest_paths D dest = some ps ∧
      ∀ path, path ∈ ps →
        List.Chain' (fun a b => unit_step a b ∧ maze.valid a = true ∧ maze.valid b = true)
          path := by
  obtain ⟨D, hD, hfin⟩ := get_steps_map_final hwf ho
  rcases hfin.cases hd with hr | ⟨d, hr, _⟩
  · exact ⟨D, [], hD, find_shortest_paths_unreached hr,
      fun path hp => absurd hp (List.not_mem_nil path)⟩
  · refine ⟨D, reverse_loop (collected D d dest), hD,
      find_shortest_paths_reached hfin ho hd hr, ?_⟩
    intro path hpath
    obtain ⟨s, rfl, _, hb⟩ := (mem_collected_iff hfin ho hd hr).1 (mem_reverse_loop.1 hpath)
    exact backRoute_adjacent ho s dest hd hb

/-- C7 at a concrete input: the obstacle-free 2x2 grid, origin (0,0), destination (1,1). -/
theorem find_shortest_paths_connected_witness :
    (⟨2, 2, [2, 0, 0, 3]⟩ : vec2).wf ∧ (⟨2, 2, [2, 0, 0, 3]⟩ : vec2).valid ⟨0, 0⟩ = true ∧
    (⟨2, 2, [2, 0, 0, 3]⟩ : vec2).valid ⟨1, 1⟩ = true ∧
    ∃ (D : vec2) (ps : List (List coords)),
      get_steps_map ⟨2, 2, [2, 0, 0, 3]⟩ ⟨0, 0⟩ = some D ∧
      find_shortest_paths D ⟨1, 1⟩ = some ps ∧
      ∀ path, path ∈ ps →
        List.Chain' (fun a b => unit_step a b ∧
          (⟨2, 2, [2, 0, 0, 3]⟩ : vec2).valid a = true ∧
          (⟨2, 2, [2, 0, 0, 3]⟩ : vec2).valid b = true) path :=
  ⟨by decide, by decide, by decide,
    find_shortest_paths_connected ⟨2, 2, [2, 0, 0, 3]⟩ ⟨0, 0⟩ ⟨1, 1⟩ (by decide) (by decide)
      (by decide)⟩

/-- C9: `find_shortest_paths map finish` returns the empty collection whenever `map` is empty
or `map[finish]` is `-1`; in particular, for an in-bounds origin and an in-bounds destination
that no route from the origin reaches, `find_shortest_paths` on the field of `get_steps_map`
returns the empty collection. -/
theorem find_shortest_paths_degenerate (map : vec2) (finish : coords) (maze : vec2)
    (origin dest : coords) :
    (map.empty = true ∨ map.read finish = some (-1) → find_shortest_paths map finish = some []) ∧
    (maze.wf → maze.valid origin = true → maze.valid dest = true →
      (¬ ∃ p, IsRoute maze origin dest p) →
      ∃ D, get_steps_map maze origin = some D ∧ find_shortest_paths D dest = some []) := by
  refine ⟨?_, ?_⟩
  · rintro (h | h)
    · exact find_shortest_paths_empty finish h
    · exact find_shortest_paths_unreached h
  · intro hwf ho hd hn
    obtain ⟨D, hD, hfin⟩ := get_steps_map_final hwf ho
    refine ⟨D, hD, find_shortest_paths_unreached (hfin.unreached hd ?_)⟩
    intro n hr
    obtain ⟨p, hp, _⟩ := reach_iff_route.1 hr
    exact hn ⟨p, hp⟩

/-- C9 at concrete inputs: the field `[0,-1,-1]` with finish (0,2), and the 1x3 grid `[2,1,3]`
with origin (0,0) and the destination (0,2) behind the wall. -/
theorem find_shortest_paths_degenerate_witness :
    ((⟨1, 3, [0, -1, -1]⟩ : vec2).read ⟨0, 2⟩ = some (-1)) ∧
    find_shortest_paths ⟨1, 3, [0, -1, -1]⟩ ⟨0, 2⟩ = some [] ∧
    (⟨1, 3, [2, 1, 3]⟩ : vec2).wf ∧ (⟨1, 3, [2, 1, 3]⟩ : vec2).valid ⟨0, 0⟩ = true ∧
    (⟨1, 3, [2, 1, 3]⟩ : vec2).valid ⟨0, 2⟩ = true ∧
    (¬ ∃ p, IsRoute ⟨1, 3, [2, 1, 3]⟩ ⟨0, 0⟩ ⟨0, 2⟩ p) ∧
    ∃ D, get_steps_map ⟨1, 3, [2, 1, 3]⟩ ⟨0, 0⟩ = some D ∧
      find_shortest_paths D ⟨0, 2⟩ = some [] :=
  ⟨by decide,
    (find_shortest_paths_degenerate ⟨1, 3, [0, -1, -1]⟩ ⟨0, 2⟩ ⟨1, 3, [2, 1, 3]⟩ ⟨0, 0⟩
      ⟨0, 2⟩).1 (Or.inr (by decide)),
    by decide, by decide, by decide, no_route_of_walled (by decide) (by decide),
    (find_shortest_paths_degenerate ⟨1, 3, [0, -1, -1]⟩ ⟨0, 2⟩ ⟨1, 3, [2, 1, 3]⟩ ⟨0, 0⟩
      ⟨0, 2⟩).2 (by decide) (by decide) (by decide)
      (no_route_of_walled (by decide) (by decide))⟩

/-- C2, failing input: on the 1x2 grid `[2,3]` with origin (0,0) and destination (0,1) the
field is `[0,1]` and the only path returned is `[(0,1),(0,0)]`: its first coordinate is the
destination and its last coordinate is the origin. -/
theorem find_shortest_paths_order_bug :
    get_steps_map ⟨1, 2, [2, 3]⟩ ⟨0, 0⟩ = some ⟨1, 2, [0, 1]⟩ ∧
    find_shortest_paths ⟨1, 2, [0, 1]⟩ ⟨0, 1⟩ = some [[⟨0, 1⟩, ⟨0, 0⟩]] := by
  decide

/-- C8, failing input: on the 2x2 grid `[2,0,1,3]` with origin (0,0) and destination (1,1)
the only path returned is `[(1,1),(0,1),(0,0)]`, and the field values read along it from its
first to its last node are 2, 1, 0: strictly decreasing. -/
theorem find_shortest_paths_values_bug :
    get_steps_map ⟨2, 2, [2, 0, 1, 3]⟩ ⟨0, 0⟩ = some ⟨2, 2, [0, 1, -1, 2]⟩ ∧
    find_shortest_paths ⟨2, 2, [0, 1, -1, 2]⟩ ⟨1, 1⟩ = some [[⟨1, 1⟩, ⟨0, 1⟩, ⟨0, 0⟩]] ∧
    [(⟨1, 1⟩ : coords), ⟨0, 1⟩, ⟨0, 0⟩].map (vec2.read ⟨2, 2, [0, 1, -1, 2]⟩)
      = [some 2, some 1, some 0] := by
  decide

/-- C10, failing input: on the field `[0,1]` of the obstacle-free 2x1 grid with origin (0,0),
the destination (0,1) is not valid, its flat index 1 aliases the cell (1,0), and
`find_shortest_paths` returns the path `[(0,1),(0,0)]` instead of an empty collection. -/
theorem find_shortest_paths_invalid_finish_bug :
    (⟨2, 1, [0, 1]⟩ : vec2).empty = false ∧ (⟨2, 1, [0, 1]⟩ : vec2).valid ⟨0, 1⟩ = false ∧
    get_steps_map ⟨2, 1, [0, 0]⟩ ⟨0, 0⟩ = some ⟨2, 1, [0, 1]⟩ ∧
    find_shortest_paths ⟨2, 1, [0, 1]⟩ ⟨0, 1⟩ = some [[⟨0, 1⟩, ⟨0, 0⟩]] := by
  decide

/-! ## Fuel -/

theorem steps_loop_fuel_succ (maze : vec2) :
    ∀ (fuel : Nat) (k : Int) (res : vec2) (q : List coords) (D : vec2),
      steps_loop maze fuel k res q = some D → steps_loop maze (fuel + 1) k res q = some D := by
  intro fuel
  induction fuel with
  | zero => intro k res q D h; simp [steps_loop] at h
  | succ fuel ih =>
    intro k res q D h
    rw [steps_loop] at h ⊢
    split
    · rename_i hq
      rw [if_pos hq] at h
      exact h
    · rename_i hq
      rw [if_neg hq] at h
      cases hf : fields_loop maze k q.length (res, q) with
      | none => rw [hf] at h; simp at h
      | some st =>
        rw [hf] at h
        exact ih (k + 1) st.1 st.2 D h

theorem steps_loop_fuel_mono (maze : vec2) {fuel fuel1 : Nat} (hle : fuel ≤ fuel1) {k : Int}
    {res : vec2} {q : List coords} {D : vec2} (h : steps_loop maze fuel k res q = some D) :
    steps_loop maze fuel1 k res q = some D := by
  induction hle with
  | refl => exact h
  | step _ ih => exact steps_loop_fuel_succ maze _ k res q D ih

/-- More fuel than `get_steps_map` takes does not change the field it returns. -/
theorem get_steps_map_fuel_mono (maze : vec2) (origin : coords) {fuel : Nat}
    (hle : maze.data.length + 1 ≤ fuel) {D : vec2} (h : get_steps_map maze origin = some D) :
    get_steps_map_fuel fuel maze origin = some D := by
  unfold get_steps_map get_steps_map_fuel at h
  unfold get_steps_map_fuel
  split
  · rename_i hc
    rw [if_pos hc] at h
    exact h
  · rename_i hc
    rw [if_neg hc] at h
    cases hw : (vec2.fill maze.M maze.N (-1)).write origin 0 with
    | none => rw [hw] at h; simp at h
    | some res =>
      rw [hw] at h
      exact steps_loop_fuel_mono maze hle h

theorem recv_scan_mono (map : vec2)
    (rec rec1 : List coords → List (List coords) → Option (List (List coords)))
    (hrec : ∀ p r out, rec p r = some out → rec1 p r = some out) (path : List coords) (v : Int) :
    ∀ (L : List coords) (np : coords) (res : List (List coords))
      (out : coords × List (List coords)),
      recv_scan map rec path v L np res = some out →
      recv_scan map rec1 path v L np res = some out := by
  intro L
  induction L with
  | nil => intro np res out h; simpa [recv_scan] using h
  | cons nn rest ih =>
    intro np res out h
    rw [recv_scan] at h ⊢
    split
    · rename_i hv
      rw [if_pos hv] at h
      cases hr : map.read nn with
      | none => rw [hr] at h; simp at h
      | some w =>
        rw [hr] at h
        simp only [] at h ⊢
        split
        · rename_i hw
          rw [if_pos hw] at h
          split
          · rename_i hn
            rw [if_pos hn] at h
            exact ih _ _ _ h
          · rename_i hn
            rw [if_neg hn] at h
            cases hc : rec (path ++ [nn]) res with
            | none => rw [hc] at h; simp at h
            | some res1 =>
              rw [hc] at h
              rw [hrec _ _ _ hc]
              exact ih _ _ _ h
        · rename_i hw
          rw [if_neg hw] at h
          exact ih _ _ _ h
    · rename_i hv
      rw [if_neg hv] at h
      exact ih _ _ _ h

theorem recv_fuel_succ (map : vec2) :
    ∀ (fuel : Nat) (path : List coords) (res out : List (List coords)),
      recv map fuel path res = some out → recv map (fuel + 1) path res = some out := by
  intro fuel
  induction fuel with
  | zero => intro path res out h; simp [recv] at h
  | succ fuel ih =>
    intro path res out h
    rw [recv] at h ⊢
    cases hl : path.getLast? with
    | none => rw [hl] at h; simp at h
    | some back =>
      rw [hl] at h
      simp only [] at h ⊢
      cases hr : map.read back with
      | none => rw [hr] at h; simp at h
      | some v =>
        rw [hr] at h
        simp only [] at h ⊢
        split
        · rename_i hv
          rw [if_pos hv] at h
          exact h
        · rename_i hv
          rw [if_neg hv] at h
          cases hs : recv_scan map (fun p r => recv map fuel p r) path v back.neighbors
              ⟨-1, -1⟩ res with
          | none => rw [hs] at h; simp at h
          | some o =>
            rw [hs] at h
            rw [recv_scan_mono map (fun p r => recv map fuel p r)
              (fun p r => recv map (fuel + 1) p r) (fun p r out hp => ih p r out hp)
              path v back.neighbors ⟨-1, -1⟩ res o hs]
            obtain ⟨np, res1⟩ := o
            exact ih _ _ _ h

theorem recv_fuel_mono (map : vec2) {fuel fuel1 : Nat} (hle : fuel ≤ fuel1) {path : List coords}
    {res out : List (List coords)} (h : recv map fuel path res = some out) :
    recv map fuel1 path res = some out := by
  induction hle with
  | refl => exact h
  | step _ ih => exact recv_fuel_succ map _ path res out ih

/-- More fuel than `find_shortest_paths` takes does not change the paths it returns. -/
theorem find_shortest_paths_fuel_mono (map : vec2) (finish : coords) {fuel : Nat}
    (hle : map.data.length + 1 ≤ fuel) {ps : List (List coords)}
    (h : find_shortest_paths map finish = some ps) :
    find_shortest_paths_fuel fuel map finish = some ps := by
  unfold find_shortest_paths find_shortest_paths_fuel at h
  unfold find_shortest_paths_fuel
  split
  · rename_i hc
    rw [if_pos hc] at h
    exact h
  · rename_i hc
    rw [if_neg hc] at h
    cases hr : map.read finish with
    | none => rw [hr] at h; simp at h
    | some v =>
      rw [hr] at h
      simp only [] at h ⊢
      split
      · rename_i hv
        rw [if_pos hv] at h
        exact h
      · rename_i hv
        rw [if_neg hv] at h
        cases hc : recv map (map.data.length + 1) [finish] [] with
        | none => rw [hc] at h; simp at h
        | some res =>
          rw [hc] at h
          rw [recv_fuel_mono map hle hc]
          exact h

/-! ## The constructor, the shape of the field and the trivial query -/

/-- C11, failing input: `vec2(2, {0,0,0})`. The length 3 is not a multiple of the row count
2, and the constructor still produces a grid (M = 2, N = 1, three cells) instead of failing
with a shape mismatch: its assertion tests `data_` after `std::move` has emptied it. -/
theorem from_data_accepts_ragged :
    [(0 : Int), 0, 0].length % 2 ≠ 0 ∧
    vec2.from_data 2 [0, 0, 0] = some ⟨2, 1, [0, 0, 0]⟩ := by
  decide

theorem vec2.from_data_some (M_ : Int) (data_ : List Int) (hM : M_ ≠ 0) :
    ∃ N, vec2.from_data M_ data_ = some ⟨M_, N, data_⟩ := by
  refine ⟨to_int (data_.length / to_size_t M_), ?_⟩
  simp [vec2.from_data, hM]

/-- C12: if the grid is empty or the origin is out of bounds, `get_steps_map` returns the
empty field (M = 0, N = 0, no cells, `empty()` true); otherwise, on a non-empty grid with an
in-bounds origin, it returns a field with the dimensions M and N of the grid (and M*N cells). -/
theorem get_steps_map_shape (maze : vec2) (origin : coords) :
    (maze.empty = true ∨ maze.valid origin = false →
      get_steps_map maze origin = some vec2.nil ∧ vec2.nil.M = 0 ∧ vec2.nil.N = 0 ∧
        vec2.nil.data = [] ∧ vec2.nil.empty = true) ∧
    (maze.wf → maze.empty = false → maze.valid origin = true →
      ∃ D, get_steps_map maze origin = some D ∧ D.M = maze.M ∧ D.N = maze.N ∧
        (D.data.length : Int) = maze.M * maze.N) := by
  refine ⟨?_, ?_⟩
  · intro h
    refine ⟨?_, rfl, rfl, rfl, rfl⟩
    unfold get_steps_map get_steps_map_fuel
    rcases h with h | h <;> simp [h]
  · intro hwf _ ho
    obtain ⟨D, hD, hfin⟩ := get_steps_map_final hwf ho
    exact ⟨D, hD, hfin.M_eq, hfin.N_eq, hfin.len⟩

/-- C12 at concrete inputs: the empty grid, the 2x3 grid with the out-of-bounds origin (2,0),
and the 2x3 grid with the origin (0,0). -/
theorem get_steps_map_shape_witness :
    ((⟨0, 0, []⟩ : vec2).empty = true ∨ (⟨0, 0, []⟩ : vec2).valid ⟨0, 0⟩ = false) ∧
    (get_steps_map ⟨0, 0, []⟩ ⟨0, 0⟩ = some vec2.nil ∧ vec2.nil.M = 0 ∧ vec2.nil.N = 0 ∧
        vec2.nil.data = [] ∧ vec2.nil.empty = true) ∧
    ((⟨2, 3, [2, 0, 0, 0, 1, 3]⟩ : vec2).empty = true ∨
      (⟨2, 3, [2, 0, 0, 0, 1, 3]⟩ : vec2).valid ⟨2, 0⟩ = false) ∧
    (get_steps_map ⟨2, 3, [2, 0, 0, 0, 1, 3]⟩ ⟨2, 0⟩ = some vec2.nil ∧ vec2.nil.M = 0 ∧
        vec2.nil.N = 0 ∧ vec2.nil.data = [] ∧ vec2.nil.empty = true) ∧
    (⟨2, 3, [2, 0, 0, 0, 1, 3]⟩ : vec2).wf ∧ (⟨2, 3, [2, 0, 0, 0, 1, 3]⟩ : vec2).empty = false ∧
    (⟨2, 3, [2, 0, 0, 0, 1, 3]⟩ : vec2).valid ⟨0, 0⟩ = true ∧
    ∃ D, get_steps_map ⟨2, 3, [2, 0, 0, 0, 1, 3]⟩ ⟨0, 0⟩ = some D ∧ D.M = 2 ∧ D.N = 3 ∧
      (D.data.length : Int) = 2 * 3 :=
  ⟨by decide, (get_steps_map_shape ⟨0, 0, []⟩ ⟨0, 0⟩).1 (by decide), by decide,
    (get_steps_map_shape ⟨2, 3, [2, 0, 0, 0, 1, 3]⟩ ⟨2, 0⟩).1 (by decide),
    by decide, by decide, by decide,
    (get_steps_map_shape ⟨2, 3, [2, 0, 0, 0, 1, 3]⟩ ⟨0, 0⟩).2 (by decide) (by decide)
      (by decide)⟩

theorem Final.origin_zero {maze : vec2} {origin : coords} {D : vec2} (h : Final maze origin D)
    (ho : maze.valid origin = true) : D.read origin = some 0 :=
  (h.dist origin ho 0).2 (minReach_zero_iff.2 rfl)

/-- C13: on a grid with an in-bounds cell `p` taken as origin and as destination, the field of
`get_steps_map` reads 0 at `p` and `find_shortest_paths` returns exactly one path, which
consists of the single coordinate `p`. -/
theorem find_shortest_paths_same_cell (maze : vec2) (p : coords) (hwf : maze.wf)
    (hp : maze.valid p = true) :
    ∃ D, get_steps_map maze p = some D ∧ D.read p = some 0 ∧
      find_shortest_paths D p = some [[p]] := by
  obtain ⟨D, hD, hfin⟩ := get_steps_map_final hwf hp
  have h0 : D.read p = some ((0 : Nat) : Int) := hfin.origin_zero hp
  refine ⟨D, hD, h0, ?_⟩
  rw [find_shortest_paths_reached hfin hp hp h0]
  simp [collected, ext, reverse_loop]

/-- C13 at a concrete input: the 2x2 grid `[0,1,0,0]` with `p` = (1,0). -/
theorem find_shortest_paths_same_cell_witness :
    (⟨2, 2, [0, 1, 0, 0]⟩ : vec2).wf ∧ (⟨2, 2, [0, 1, 0, 0]⟩ : vec2).valid ⟨1, 0⟩ = true ∧
    ∃ D, get_steps_map ⟨2, 2, [0, 1, 0, 0]⟩ ⟨1, 0⟩ = some D ∧ D.read ⟨1, 0⟩ = some 0 ∧
      find_shortest_paths D ⟨1, 0⟩ = some [[⟨1, 0⟩]] :=
  ⟨by decide, by decide,
    find_shortest_paths_same_cell ⟨2, 2, [0, 1, 0, 0]⟩ ⟨1, 0⟩ (by decide) (by decide)⟩

/-! ## Local minima, inner nodes and the 2x2 scenario -/

/-- C14, counterexample: on the 1x2 grid `[1,0]` with the blocked cell (0,0) as origin the
field is `[0,1]`; the cell (0,1) is not the origin and has the finite value 1, but none of its
neighbours is in bounds, unblocked and finite, so there is no minimum to add 1 to. -/
theorem blocked_origin_no_unblocked_neighbour :
    (⟨1, 2, [1, 0]⟩ : vec2).wf ∧ (⟨1, 2, [1, 0]⟩ : vec2).empty = false ∧
    (⟨1, 2, [1, 0]⟩ : vec2).valid ⟨0, 0⟩ = true ∧
    get_steps_map ⟨1, 2, [1, 0]⟩ ⟨0, 0⟩ = some ⟨1, 2, [0, 1]⟩ ∧
    (⟨0, 1⟩ : coords) ≠ ⟨0, 0⟩ ∧ (⟨1, 2, [0, 1]⟩ : vec2).read ⟨0, 1⟩ = some 1 ∧
    (coords.neighbors ⟨0, 1⟩).filter (fun n =>
      (⟨1, 2, [1, 0]⟩ : vec2).valid n && decide ((⟨1, 2, [1, 0]⟩ : vec2).read n ≠ some 1) &&
      decide ((⟨1, 2, [0, 1]⟩ : vec2).read n ≠ some (-1))) = [] := by
  decide

/-- C14, amended: with `D` the field of `get_steps_map`, `D[origin] = 0`, and for every other
in-bounds cell `c` with a finite value, `D[c]` is 1 + the minimum of `D[n]` over the in-bounds
4-neighbours `n` of `c` that have a finite value and are unblocked or are the origin itself:
some such neighbour reads `D[c] - 1` and every such neighbour reads at least `D[c] - 1`. -/
theorem get_steps_map_local_min (maze : vec2) (origin : coords) (hwf : maze.wf)
    (ho : maze.valid origin = true) :
    ∃ D, get_steps_map maze origin = some D ∧ D.read origin = some 0 ∧
      ∀ c x, maze.valid c = true → c ≠ origin → D.read c = some x → x ≠ -1 →
        (∃ n, n ∈ c.neighbors ∧ maze.valid n = true ∧ (maze.read n ≠ some 1 ∨ n = origin) ∧
          D.read n = some (x - 1) ∧ x - 1 ≠ -1) ∧
        (∀ n y, n ∈ c.neighbors → maze.valid n = true →
          (maze.read n ≠ some 1 ∨ n = origin) → D.read n = some y → y ≠ -1 → x ≤ 1 + y) := by
  obtain ⟨D, hD, hfin⟩ := get_steps_map_final hwf ho
  refine ⟨D, hD, hfin.origin_zero ho, ?_⟩
  intro c x hc hne hx hx1
  rcases hfin.cases hc with h1 | ⟨d, hd, hmin⟩
  · rw [hx] at h1
    exact absurd (by simpa using h1) hx1
  have hxd : x = (d : Int) := by rw [hx] at hd; simpa using hd
  subst hxd
  cases d with
  | zero => exact absurd (minReach_zero_iff.1 hmin) hne
  | succ e =>
    refine ⟨?_, ?_⟩
    · obtain ⟨a, ha, hst⟩ := minReach_pred hmin
      have hav : maze.valid a = true := reach_valid ho ha.1
      refine ⟨a, coords.mem_neighbors_symm hst.1, hav, ?_, ?_, ?_⟩
      · cases e with
        | zero => exact Or.inr (minReach_zero_iff.1 ha)
        | succ e => exact Or.inl (reach_not_blocked ha.1)
      · rw [(hfin.dist a hav e).2 ha]
        push_cast
        congr 1
        omega
      · push_cast
        omega
    · intro n y hn hnv _ hy hy1
      rcases hfin.cases hnv with h1 | ⟨f, hf, hfmin⟩
      · rw [hy] at h1
        exact absurd (by simpa using h1) hy1
      have hyf : y = (f : Int) := by rw [hy] at hf; simpa using hf
      subst hyf
      have hstep : step maze n c :=
        ⟨coords.mem_neighbors_symm hn, hc, reach_not_blocked hmin.1⟩
      have hr : Reach maze origin (f + 1) c := reach_succ_iff.2 ⟨n, hfmin.1, hstep⟩
      have : ¬ f + 1 < e + 1 := fun hlt => hmin.2 (f + 1) hlt hr
      push_cast
      omega

/-- C14 amended, at a concrete input: the 1x3 grid `[1,0,0]` with the blocked cell (0,0) as origin. -/
theorem get_steps_map_local_min_witness :
    (⟨1, 3, [1, 0, 0]⟩ : vec2).wf ∧ (⟨1, 3, [1, 0, 0]⟩ : vec2).valid ⟨0, 0⟩ = true ∧
    ∃ D, get_steps_map ⟨1, 3, [1, 0, 0]⟩ ⟨0, 0⟩ = some D ∧ D.read ⟨0, 0⟩ = some 0 ∧
      ∀ c x, (⟨1, 3, [1, 0, 0]⟩ : vec2).valid c = true → c ≠ ⟨0, 0⟩ → D.read c = some x →
        x ≠ -1 →
        (∃ n, n ∈ c.neighbors ∧ (⟨1, 3, [1, 0, 0]⟩ : vec2).valid n = true ∧
          ((⟨1, 3, [1, 0, 0]⟩ : vec2).read n ≠ some 1 ∨ n = ⟨0, 0⟩) ∧
          D.read n = some (x - 1) ∧ x - 1 ≠ -1) ∧
        (∀ n y, n ∈ c.neighbors → (⟨1, 3, [1, 0, 0]⟩ : vec2).valid n = true →
          ((⟨1, 3, [1, 0, 0]⟩ : vec2).read n ≠ some 1 ∨ n = ⟨0, 0⟩) → D.read n = some y →
          y ≠ -1 → x ≤ 1 + y) :=
  ⟨by decide, by decide,
    get_steps_map_local_min ⟨1, 3, [1, 0, 0]⟩ ⟨0, 0⟩ (by decide) (by decide)⟩

theorem backRoute_inner_free {maze : vec2} {origin : coords} :
    ∀ (s : List coords) (t : coords), BackRoute maze origin t s →
      ∀ k c, k + 1 < s.length → s[k]? = some c → maze.read c ≠ some 1 := by
  intro s
  induction s with
  | nil => intro t _ k c hk; simp at hk
  | cons q s ih =>
    intro t hb k c hk hc
    cases k with
    | zero =>
      have hq : q = c := by simpa using hc
      subst hq
      cases s with
      | nil => simp at hk
      | cons q1 s1 => exact hb.2.1.2.2
    | succ k =>
      have hk1 : k + 1 < s.length := by simpa using hk
      exact ih q hb.2 k c hk1 (by simpa using hc)

/-- C15: for an in-bounds origin and destination, no node of a path returned by
`find_shortest_paths` on the field of `get_steps_map` that is neither the first nor the last
node of the path has the grid label blocked (1). -/
theorem find_shortest_paths_inner_free (maze : vec2) (origin dest : coords) (hwf : maze.wf)
    (ho : maze.valid origin = true) (hd : maze.valid dest = true) :
    ∃ (D : vec2) (ps : List (List coords)),
      get_steps_map maze origin = some D ∧ find_shortest_paths D dest = some ps ∧
      ∀ path, path ∈ ps → ∀ i c, 0 < i → i + 1 < path.length → path[i]? = some c →
        maze.read c ≠ some 1 := by
  obtain ⟨D, hD, hfin⟩ := get_steps_map_final hwf ho
  rcases hfin.cases hd with hr | ⟨d, hr, _⟩
  · exact ⟨D, [], hD, find_shortest_paths_unreached hr,
      fun path hp => absurd hp (List.not_mem_nil path)⟩
  · refine ⟨D, reverse_loop (collected D d dest), hD,
      find_shortest_paths_reached hfin ho hd hr, ?_⟩
    intro path hpath i c hi hlen hc
    obtain ⟨s, rfl, _, hb⟩ := (mem_collected_iff hfin ho hd hr).1 (mem_reverse_loop.1 hpath)
    obtain ⟨k, rfl⟩ : ∃ k, i = k + 1 := ⟨i - 1, by omega⟩
    exact backRoute_inner_free s dest hb k c (by simpa using hlen) (by simpa using hc)

/-- C15 at a concrete input: the 1x3 grid `[1,0,0]`, origin (0,0), destination (0,2). -/
theorem find_shortest_paths_inner_free_witness :
    (⟨1, 3, [1, 0, 0]⟩ : vec2).wf ∧ (⟨1, 3, [1, 0, 0]⟩ : vec2).valid ⟨0, 0⟩ = true ∧
    (⟨1, 3, [1, 0, 0]⟩ : vec2).valid ⟨0, 2⟩ = true ∧
    ∃ (D : vec2) (ps : List (List coords)),
      get_steps_map ⟨1, 3, [1, 0, 0]⟩ ⟨0, 0⟩ = some D ∧
      find_shortest_paths D ⟨0, 2⟩ = some ps ∧
      ∀ path, path ∈ ps → ∀ i c, 0 < i → i + 1 < path.length → path[i]? = some c →
        (⟨1, 3, [1, 0, 0]⟩ : vec2).read c ≠ some 1 :=
  ⟨by decide, by decide, by decide,
    find_shortest_paths_inner_free ⟨1, 3, [1, 0, 0]⟩ ⟨0, 0⟩ ⟨0, 2⟩ (by decide) (by decide)
      (by decide)⟩

/-- C16: on the obstacle-free 2x2 grid (all labels 0, or with the markers 2 and 3) with origin
(0,0) and destination (1,1), `get_steps_map` returns the field `[[0,1],[1,2]]` and
`find_shortest_paths` on that field returns exactly 2 paths, each with 3 nodes. -/
theorem scenario_two_by_two :
    get_steps_map ⟨2, 2, [0, 0, 0, 0]⟩ ⟨0, 0⟩ = some ⟨2, 2, [0, 1, 1, 2]⟩ ∧
    get_steps_map ⟨2, 2, [2, 0, 0, 3]⟩ ⟨0, 0⟩ = some ⟨2, 2, [0, 1, 1, 2]⟩ ∧
    find_shortest_paths ⟨2, 2, [0, 1, 1, 2]⟩ ⟨1, 1⟩ =
      some [[⟨1, 1⟩, ⟨1, 0⟩, ⟨0, 0⟩], [⟨1, 1⟩, ⟨0, 1⟩, ⟨0, 0⟩]] ∧
    [[(⟨1, 1⟩ : coords), ⟨1, 0⟩, ⟨0, 0⟩], [⟨1, 1⟩, ⟨0, 1⟩, ⟨0, 0⟩]].length = 2 ∧
    [[(⟨1, 1⟩ : coords), ⟨1, 0⟩, ⟨0, 0⟩], [⟨1, 1⟩, ⟨0, 1⟩, ⟨0, 0⟩]].map List.length = [3, 3] := by
  decide

/-! ## Predecessors, distinct paths and the order of the result -/

theorem backRoute_nodes_valid {maze : vec2} {origin : coords} (ho : maze.valid origin = true) :
    ∀ (s : List coords) (t : coords), BackRoute maze origin t s →
      ∀ c, c ∈ s → maze.valid c = true := by
  intro s
  induction s with
  | nil => intro t _ c hc; exact absurd hc (List.not_mem_nil c)
  | cons q s ih =>
    intro t hb c hc
    rcases List.mem_cons.1 hc with h | h
    · subst h
      exact reach_valid ho ⟨s, rfl, hb.2⟩
    · exact ih q hb.2 c h

theorem backRoute_nodes_reach {maze : vec2} {origin : coords} :
    ∀ (s : List coords) (t : coords), BackRoute maze origin t s →
      ∀ c, c ∈ s → ∃ n, Reach maze origin n c := by
  intro s
  induction s with
  | nil => intro t _ c hc; exact absurd hc (List.not_mem_nil c)
  | cons q s ih =>
    intro t hb c hc
    rcases List.mem_cons.1 hc with h | h
    · subst h
      exact ⟨s.length, s, rfl, hb.2⟩
    · exact ih q hb.2 c h

theorem backRoute_last {maze : vec2} {origin : coords} {s : List coords} {t : coords}
    (hb : BackRoute maze origin t s) : (t :: s).getLast? = some origin :=
  ((backRoute_iff_chain s t).1 hb).2

/-- C17: for an in-bounds origin and destination, `find_shortest_paths` on the field `D` of
`get_steps_map` returns a result (no read outside the field), non-empty when the destination
has a finite value; every in-bounds cell with a finite value other than 0, and so every tail
the backward walk visits, has an in-bounds 4-neighbour that reads one less; and every node
of a returned path is in bounds and is not the sentinel (-1,-1). -/
theorem recv_always_finds_predecessor (maze : vec2) (origin dest : coords) (hwf : maze.wf)
    (ho : maze.valid origin = true) (hd : maze.valid dest = true) :
    ∃ (D : vec2) (ps : List (List coords)),
      get_steps_map maze origin = some D ∧ find_shortest_paths D dest = some ps ∧
      (D.read dest ≠ some (-1) → ps ≠ []) ∧
      (∀ t x, D.valid t = true → D.read t = some x → x ≠ -1 → x ≠ 0 →
        ∃ n, n ∈ t.neighbors ∧ D.valid n = true ∧ D.read n = some (x - 1)) ∧
      (∀ path t x, path ∈ ps → t ∈ path → D.read t = some x → x ≠ 0 →
        ∃ n, n ∈ t.neighbors ∧ D.valid n = true ∧ D.read n = some (x - 1)) ∧
      (∀ path t, path ∈ ps → t ∈ path → D.valid t = true ∧ t ≠ ⟨-1, -1⟩) := by
  obtain ⟨D, hD, hfin⟩ := get_steps_map_final hwf ho
  have hgen : ∀ t x, D.valid t = true → D.read t = some x → x ≠ -1 → x ≠ 0 →
      ∃ n, n ∈ t.neighbors ∧ D.valid n = true ∧ D.read n = some (x - 1) := by
    intro t x htv hx hx1 hx0
    have htm : maze.valid t = true := by rw [← hfin.valid_field]; exact htv
    rcases hfin.cases htm with h1 | ⟨e, he, _⟩
    · rw [hx] at h1
      exact absurd (by simpa using h1) hx1
    · have hxe : x = (e : Int) := by rw [hx] at he; simpa using he
      subst hxe
      cases e with
      | zero => exact absurd rfl hx0
      | succ e =>
        have hp := hfin.hasPred ho t e htv (by rw [hx]; push_cast; rfl)
        obtain ⟨n, hn⟩ := List.exists_mem_of_ne_nil _ hp
        obtain ⟨h1, h2, h3⟩ := mem_preds.1 hn
        refine ⟨n, h1, h2, ?_⟩
        rw [h3]
        push_cast
        congr 1
        omega
  rcases hfin.cases hd with hr | ⟨d, hr, _⟩
  · exact ⟨D, [], hD, find_shortest_paths_unreached hr, fun h => absurd hr h, hgen,
      fun path _ _ hp => absurd hp (List.not_mem_nil path),
      fun path _ hp => absurd hp (List.not_mem_nil path)⟩
  · have hvalid : ∀ path t, path ∈ reverse_loop (collected D d dest) → t ∈ path →
        maze.valid t = true := by
      intro path t hpath ht
      obtain ⟨s, rfl, _, hb⟩ := (mem_collected_iff hfin ho hd hr).1 (mem_reverse_loop.1 hpath)
      rcases List.mem_cons.1 ht with h | h
      · rw [h]; exact hd
      · exact backRoute_nodes_valid ho s dest hb t h
    refine ⟨D, reverse_loop (collected D d dest), hD,
      find_shortest_paths_reached hfin ho hd hr, ?_, hgen, ?_, ?_⟩
    · intro _ hnil
      have h1 := length_reverse_loop (collected D d dest)
      rw [hnil] at h1
      exact collected_ne_nil hfin ho hd hr (List.length_eq_zero.1 h1.symm)
    · intro path t x hpath ht hx hx0
      have htv := hvalid path t hpath ht
      rcases hfin.cases htv with h1 | ⟨e, he, _⟩
      · exfalso
        obtain ⟨s, rfl, _, hb⟩ :=
          (mem_collected_iff hfin ho hd hr).1 (mem_reverse_loop.1 hpath)
        have hreach : ∃ n, Reach maze origin n t := by
          rcases List.mem_cons.1 ht with h | h
          · rw [h]; exact ⟨d, ((hfin.dist dest hd d).1 hr).1⟩
          · exact backRoute_nodes_reach s dest hb t h
        obtain ⟨n, hn⟩ := hreach
        exact (hfin.unreached_iff htv).1 h1 n hn
      · have hx1 : x ≠ -1 := by
          intro h
          rw [hx, h] at he
          have := Option.some.inj he
          omega
        exact hgen t x (by rw [hfin.valid_field]; exact htv) hx hx1 hx0
    · intro path t hpath ht
      have htv := hvalid path t hpath ht
      refine ⟨by rw [hfin.valid_field]; exact htv, ?_⟩
      intro h
      rw [h] at htv
      exact absurd htv (by simp [vec2.valid])

/-- C17 at a concrete input: the obstacle-free 2x2 grid, origin (0,0), destination (1,1). -/
theorem recv_always_finds_predecessor_witness :
    (⟨2, 2, [2, 0, 0, 3]⟩ : vec2).wf ∧ (⟨2, 2, [2, 0, 0, 3]⟩ : vec2).valid ⟨0, 0⟩ = true ∧
    (⟨2, 2, [2, 0, 0, 3]⟩ : vec2).valid ⟨1, 1⟩ = true ∧
    ∃ (D : vec2) (ps : List (List coords)),
      get_steps_map ⟨2, 2, [2, 0, 0, 3]⟩ ⟨0, 0⟩ = some D ∧
      find_shortest_paths D ⟨1, 1⟩ = some ps ∧
      (D.read ⟨1, 1⟩ ≠ some (-1) → ps ≠ []) ∧
      (∀ t x, D.valid t = true → D.read t = some x → x ≠ -1 → x ≠ 0 →
        ∃ n, n ∈ t.neighbors ∧ D.valid n = true ∧ D.read n = some (x - 1)) ∧
      (∀ path t x, path ∈ ps → t ∈ path → D.read t = some x → x ≠ 0 →
        ∃ n, n ∈ t.neighbors ∧ D.valid n = true ∧ D.read n = some (x - 1)) ∧
      (∀ path t, path ∈ ps → t ∈ path → D.valid t = true ∧ t ≠ ⟨-1, -1⟩) :=
  ⟨by decide, by decide, by decide,
    recv_always_finds_predecessor ⟨2, 2, [2, 0, 0, 3]⟩ ⟨0, 0⟩ ⟨1, 1⟩ (by decide) (by decide)
      (by decide)⟩

/-- C19: for an in-bounds origin and destination, the paths returned by `find_shortest_paths`
on the field of `get_steps_map` are pairwise distinct. -/
theorem find_shortest_paths_distinct (maze : vec2) (origin dest : coords) (hwf : maze.wf)
    (ho : maze.valid origin = true) (hd : maze.valid dest = true) :
    ∃ (D : vec2) (ps : List (List coords)),
      get_steps_map maze origin = some D ∧ find_shortest_paths D dest = some ps ∧
      ps.Nodup := by
  obtain ⟨D, hD, hfin⟩ := get_steps_map_final hwf ho
  rcases hfin.cases hd with hr | ⟨d, hr, _⟩
  · exact ⟨D, [], hD, find_shortest_paths_unreached hr, List.nodup_nil⟩
  · exact ⟨D, reverse_loop (collected D d dest), hD,
      find_shortest_paths_reached hfin ho hd hr,
      nodup_reverse_loop.2 (collected_nodup D d dest)⟩

/-- C19 at a concrete input: the obstacle-free 2x2 grid, origin (0,0), destination (1,1). -/
theorem find_shortest_paths_distinct_witness :
    (⟨2, 2, [2, 0, 0, 3]⟩ : vec2).wf ∧ (⟨2, 2, [2, 0, 0, 3]⟩ : vec2).valid ⟨0, 0⟩ = true ∧
    (⟨2, 2, [2, 0, 0, 3]⟩ : vec2).valid ⟨1, 1⟩ = true ∧
    ∃ (D : vec2) (ps : List (List coords)),
      get_steps_map ⟨2, 2, [2, 0, 0, 3]⟩ ⟨0, 0⟩ = some D ∧
      find_shortest_paths D ⟨1, 1⟩ = some ps ∧ ps.Nodup :=
  ⟨by decide, by decide, by decide,
    find_shortest_paths_distinct ⟨2, 2, [2, 0, 0, 3]⟩ ⟨0, 0⟩ ⟨1, 1⟩ (by decide) (by decide)
      (by decide)⟩

theorem recv_collected {maze : vec2} {origin : coords} {D : vec2}
    (h : Final maze origin D) (ho : maze.valid origin = true) {dest : coords}
    (hd : maze.valid dest = true) {d : Nat} (hr : D.read dest = some (d : Int)) :
    recv D (D.data.length + 1) [dest] [] = some (collected D d dest) := by
  have hdv : D.valid dest = true := by rw [h.valid_field]; exact hd
  have hb := h.bound dest d hd hr
  have hfuel : d < D.data.length + 1 := by omega
  have hrecv := recv_spec h.field_wf (h.hasPred ho) d (D.data.length + 1) [dest] dest []
    hfuel rfl hdv hr
  rw [hrecv]
  simp [collected]

/-- C20: for an in-bounds origin and a destination that a route reaches, with `res` the paths
collected by `recv`, `find_shortest_paths` returns `res` itself when the number of paths is
even and `res` reversed as a collection when it is odd; no path is reversed: every returned
path has the destination as its first node and the origin, which reads 0, as its last. -/
theorem find_shortest_paths_returns_backward (maze : vec2) (origin dest : coords)
    (hwf : maze.wf) (ho : maze.valid origin = true) (hd : maze.valid dest = true)
    (hr : ∃ p, IsRoute maze origin dest p) :
    ∃ (D : vec2) (res ps : List (List coords)),
      get_steps_map maze origin = some D ∧ D.read origin = some 0 ∧
      recv D (D.data.length + 1) [dest] [] = some res ∧
      find_shortest_paths D dest = some ps ∧ ps ≠ [] ∧
      ps = (if res.length % 2 = 0 then res else res.reverse) ∧
      ∀ path, path ∈ ps → path.head? = some dest ∧ path.getLast? = some origin := by
  obtain ⟨D, hD, hfin⟩ := get_steps_map_final hwf ho
  obtain ⟨p0, hp0⟩ := hr
  obtain ⟨d, _, hread, _⟩ := hfin.of_reach ho (route_reach hp0)
  refine ⟨D, collected D d dest, reverse_loop (collected D d dest), hD, hfin.origin_zero ho,
    recv_collected hfin ho hd hread, find_shortest_paths_reached hfin ho hd hread, ?_,
    reverse_loop_eq _, ?_⟩
  · intro hnil
    have h1 := length_reverse_loop (collected D d dest)
    rw [hnil] at h1
    exact collected_ne_nil hfin ho hd hread (List.length_eq_zero.1 h1.symm)
  · intro path hpath
    obtain ⟨s, rfl, _, hb⟩ :=
      (mem_collected_iff hfin ho hd hread).1 (mem_reverse_loop.1 hpath)
    exact ⟨rfl, backRoute_last hb⟩

/-- C20 at a concrete input: the obstacle-free 2x2 grid, origin (0,0), destination (1,1). -/
theorem find_shortest_paths_returns_backward_witness :
    (⟨2, 2, [2, 0, 0, 3]⟩ : vec2).wf ∧ (⟨2, 2, [2, 0, 0, 3]⟩ : vec2).valid ⟨0, 0⟩ = true ∧
    (⟨2, 2, [2, 0, 0, 3]⟩ : vec2).valid ⟨1, 1⟩ = true ∧
    (∃ p, IsRoute ⟨2, 2, [2, 0, 0, 3]⟩ ⟨0, 0⟩ ⟨1, 1⟩ p) ∧
    ∃ (D : vec2) (res ps : List (List coords)),
      get_steps_map ⟨2, 2, [2, 0, 0, 3]⟩ ⟨0, 0⟩ = some D ∧ D.read ⟨0, 0⟩ = some 0 ∧
      recv D (D.data.length + 1) [⟨1, 1⟩] [] = some res ∧
      find_shortest_paths D ⟨1, 1⟩ = some ps ∧ ps ≠ [] ∧
      ps = (if res.length % 2 = 0 then res else res.reverse) ∧
      ∀ path, path ∈ ps → path.head? = some ⟨1, 1⟩ ∧ path.getLast? = some ⟨0, 0⟩ :=
  ⟨by decide, by decide, by decide, ⟨[⟨0, 0⟩, ⟨0, 1⟩, ⟨1, 1⟩], by decide⟩,
    find_shortest_paths_returns_backward ⟨2, 2, [2, 0, 0, 3]⟩ ⟨0, 0⟩ ⟨1, 1⟩ (by decide)
      (by decide) (by decide) ⟨[⟨0, 0⟩, ⟨0, 1⟩, ⟨1, 1⟩], by decide⟩⟩

/-! ## The queue of `get_steps_map` -/

theorem visit_queue {maze : vec2} {k : Int} {res res1 : vec2} {q q1 : List coords} {nn : coords}
    (h : visit maze k (res, q) nn = some (res1, q1)) :
    q1 = q ∨ (q1 = q ++ [nn] ∧ maze.valid nn = true ∧ maze.read nn ≠ some 1 ∧
      res.read nn = some (-1)) := by
  unfold visit at h
  split at h
  · rename_i hv
    cases ha : maze.read nn with
    | none => rw [ha] at h; simp at h
    | some a =>
      rw [ha] at h
      simp only [] at h
      split at h
      · rename_i ha1
        cases hb : res.read nn with
        | none => rw [hb] at h; simp at h
        | some b =>
          rw [hb] at h
          simp only [] at h
          split at h
          · rename_i hb1
            cases hw : res.write nn k with
            | none => rw [hw] at h; simp at h
            | some r =>
              rw [hw] at h
              simp only [Option.some.injEq, Prod.mk.injEq] at h
              right
              refine ⟨h.2.symm, hv, ?_, by rw [hb1]⟩
              simpa using ha1
          · simp only [Option.some.injEq, Prod.mk.injEq] at h
            exact Or.inl h.2.symm
      · simp only [Option.some.injEq, Prod.mk.injEq] at h
        exact Or.inl h.2.symm
  · simp only [Option.some.injEq, Prod.mk.injEq] at h
    exact Or.inl h.2.symm

theorem QueueOk.kept_labels {maze res res1 : vec2} {q : List coords} (h : QueueOk maze res q)
    (hk : Keeps maze res res1) : QueueOk maze res1 q := by
  refine ⟨h.1, ?_⟩
  intro p hp
  obtain ⟨hv, x, hx, hx1⟩ := h.2 p hp
  exact ⟨hv, x, hk p x hv hx hx1, hx1⟩

theorem visit_queueOk {maze : vec2} {origin : coords} {j : Nat} {res : vec2} {newq : List coords}
    {c0 : Nat} (hwf : maze.wf) (h : Mid maze origin j res newq c0) {f nn : coords}
    (hf : maze.valid f = true) (hfj : res.read f = some (j : Int)) (hnn : nn ∈ f.neighbors)
    (pre : List coords) (hq : QueueOk maze res (pre ++ newq)) :
    ∃ res1 newq1, visit maze ((j : Int) + 1) (res, pre ++ newq) nn = some (res1, pre ++ newq1) ∧
      Mid maze origin j res1 newq1 c0 ∧ Keeps maze res res1 ∧
      QueueOk maze res1 (pre ++ newq1) := by
  obtain ⟨res1, newq1, hv, hm, hk, hc⟩ := visit_mid hwf h hf hfj hnn pre
  refine ⟨res1, newq1, hv, hm, hk, ?_⟩
  have hq1 : QueueOk maze res1 (pre ++ newq) := hq.kept_labels hk
  rcases visit_queue hv with he | ⟨he, hnv, hnb, hn1⟩
  · rw [he]; exact hq1
  · rw [he]
    refine ⟨?_, ?_⟩
    · refine List.Nodup.append hq.1 (List.nodup_singleton nn) ?_
      intro p hp hp2
      rw [List.mem_singleton] at hp2
      subst hp2
      obtain ⟨_, x, hx, hx1⟩ := hq.2 p hp
      rw [hn1] at hx
      exact hx1 (by simpa using hx.symm)
    · intro p hp
      rcases List.mem_append.1 hp with hp1 | hp1
      · exact hq1.2 p hp1
      · rw [List.mem_singleton] at hp1
        subst hp1
        obtain ⟨x, hx⟩ := hm.read_res hnv
        refine ⟨hnv, x, hx, ?_⟩
        intro hx1
        subst hx1
        exact hc hnv hnb hx

theorem visit_all_queueOk {maze : vec2} {origin : coords} {j : Nat} {c0 : Nat} (hwf : maze.wf)
    {f : coords} (hf : maze.valid f = true) (pre : List coords) :
    ∀ (L : List coords) (res : vec2) (newq : List coords), Mid maze origin j res newq c0 →
      res.read f = some (j : Int) → (∀ nn, nn ∈ L → nn ∈ f.neighbors) →
      QueueOk maze res (pre ++ newq) →
      ∃ res1 newq1, visit_all maze ((j : Int) + 1) L (res, pre ++ newq) = some (res1, pre ++ newq1) ∧
        Mid maze origin j res1 newq1 c0 ∧ Keeps maze res res1 ∧
        QueueOk maze res1 (pre ++ newq1) := by
  intro L
  induction L with
  | nil =>
    intro res newq h _ _ hq
    exact ⟨res, newq, rfl, h, Keeps.refl _ _, hq⟩
  | cons nn rest ih =>
    intro res newq h hfj hL hq
    obtain ⟨res1, newq1, hv1, hm1, hk1, hq1⟩ :=
      visit_queueOk hwf h hf hfj (hL nn (List.mem_cons_self nn rest)) pre hq
    have hfj1 : res1.read f = some (j : Int) := hk1 f j hf hfj (by omega)
    obtain ⟨res2, newq2, hv2, hm2, hk2, hq2⟩ :=
      ih res1 newq1 hm1 hfj1 (fun x hx => hL x (List.mem_cons_of_mem nn hx)) hq1
    refine ⟨res2, newq2, ?_, hm2, hk1.trans hk2, hq2⟩
    simp only [visit_all, hv1]
    exact hv2

theorem fields_loop_queueOk {maze : vec2} {origin : coords} {j : Nat} {c0 : Nat}
    (hwf : maze.wf) :
    ∀ (rem : List coords) (res : vec2) (newq : List coords), Mid maze origin j res newq c0 →
      (∀ f, f ∈ rem → maze.valid f = true ∧ res.read f = some (j : Int)) →
      QueueOk maze res (rem ++ newq) →
      ∃ res1 newq1, fields_loop maze ((j : Int) + 1) rem.length (res, rem ++ newq)
          = some (res1, newq1) ∧
        Mid maze origin j res1 newq1 c0 ∧ Keeps maze res res1 ∧ QueueOk maze res1 newq1 := by
  intro rem
  induction rem with
  | nil =>
    intro res newq h _ hq
    exact ⟨res, newq, rfl, h, Keeps.refl _ _, hq⟩
  | cons f rest ih =>
    intro res newq h hrem hq
    obtain ⟨hfv, hfj⟩ := hrem f (List.mem_cons_self f rest)
    obtain ⟨res1, newq1, hv1, hm1, hk1, hq1⟩ :=
      visit_all_queueOk hwf hfv (f :: rest) f.neighbors res newq h hfj (fun _ hx => hx) hq
    have hrest : ∀ g, g ∈ rest → maze.valid g = true ∧ res1.read g = some (j : Int) := by
      intro g hg
      obtain ⟨hgv, hgj⟩ := hrem g (List.mem_cons_of_mem f hg)
      exact ⟨hgv, hk1 g j hgv hgj (by omega)⟩
    have hq1t : QueueOk maze res1 (rest ++ newq1) := by
      rw [List.cons_append] at hq1
      exact ⟨(List.nodup_cons.1 hq1.1).2, fun p hp => hq1.2 p (List.mem_cons_of_mem f hp)⟩
    obtain ⟨res2, newq2, hv2, hm2, hk2, hq2⟩ := ih res1 newq1 hm1 hrest hq1t
    refine ⟨res2, newq2, ?_, hm2, hk1.trans hk2, hq2⟩
    simp only [List.length_cons, fields_loop, List.cons_append]
    rw [← List.cons_append, hv1]
    simpa using hv2

/-! ## The rounds of `get_steps_map` -/

/-- One round of `get_steps_map` leads from the state of one level to the state of the next. -/
theorem round_step {maze : vec2} {origin : coords} (hwf : maze.wf)
    (ho : maze.valid origin = true) {j : Nat} {res res1 : vec2} {q q1 : List coords}
    (h : Level maze origin j res q) (hnd : q.Nodup)
    (hl : fields_loop maze ((j : Int) + 1) q.length (res, q) = some (res1, q1)) :
    Level maze origin (j + 1) res1 q1 ∧ q1.Nodup ∧ Keeps maze res res1 ∧
      res1.data.count (-1) + q1.length = res.data.count (-1) := by
  have hmem : ∀ f, f ∈ q → maze.valid f = true ∧ res.read f = some (j : Int) :=
    fun f hf => (h.q_iff f).1 hf
  have hq : QueueOk maze res (q ++ []) := by
    rw [List.append_nil]
    refine ⟨hnd, fun p hp => ?_⟩
    obtain ⟨hv, hr⟩ := hmem p hp
    exact ⟨hv, j, hr, by omega⟩
  obtain ⟨r1, n1, hl1, hm, _, hcl⟩ := fields_loop_mid hwf q res [] h.toMid hmem
  obtain ⟨r2, n2, hl2, _, hk, hq2⟩ := fields_loop_queueOk hwf q res [] h.toMid hmem hq
  rw [List.append_nil] at hl1 hl2
  rw [hl] at hl1 hl2
  simp only [Option.some.injEq, Prod.mk.injEq] at hl1 hl2
  obtain ⟨rfl, rfl⟩ := hl1
  obtain ⟨rfl, rfl⟩ := hl2
  refine ⟨?_, hq2.1, hk, hm.cnt⟩
  apply hm.toLevel ho
  intro f hfv hfj
  apply hcl
  rw [h.q_iff]
  exact ⟨hfv, (h.old f hfv j le_rfl).2 ((hm.old f hfv j le_rfl).1 hfj)⟩

theorem round_state_succ {maze : vec2} {origin : coords} {j : Nat} {res1 : vec2}
    {q1 : List coords} (h : round_state maze origin (j + 1) = some (res1, q1)) :
    ∃ res q, round_state maze origin j = some (res, q) ∧ q ≠ [] ∧
      fields_loop maze ((j : Int) + 1) q.length (res, q) = some (res1, q1) := by
  rw [round_state] at h
  cases hs : round_state maze origin j with
  | none => rw [hs] at h; simp at h
  | some st =>
    rw [hs] at h
    obtain ⟨res, q⟩ := st
    simp only [] at h
    split at h
    · simp at h
    · rename_i hq
      refine ⟨res, q, rfl, ?_, h⟩
      intro hnil
      apply hq
      rw [hnil]
      rfl

/-- The state at the start of every round of `get_steps_map` -/
theorem round_state_level {maze : vec2} {origin : coords} (hwf : maze.wf)
    (ho : maze.valid origin = true) :
    ∀ (j : Nat) (res : vec2) (q : List coords), round_state maze origin j = some (res, q) →
      Level maze origin j res q ∧ q.Nodup := by
  intro j
  induction j with
  | zero =>
    intro res q h
    obtain ⟨r, hw, hlev, _⟩ := level_init ho
    simp only [round_state, hw, Option.some.injEq, Prod.mk.injEq] at h
    obtain ⟨rfl, rfl⟩ := h
    exact ⟨hlev, List.nodup_singleton origin⟩
  | succ j ih =>
    intro res1 q1 h
    obtain ⟨res, q, hs, _, hl⟩ := round_state_succ h
    obtain ⟨hlev, hnd⟩ := ih res q hs
    obtain ⟨h1, h2, _, _⟩ := round_step hwf ho hlev hnd hl
    exact ⟨h1, h2⟩

theorem round_state_keeps {maze : vec2} {origin : coords} (hwf : maze.wf)
    (ho : maze.valid origin = true) {i : Nat} {res : vec2} {q : List coords}
    (hi : round_state maze origin i = some (res, q)) :
    ∀ (n : Nat) (res1 : vec2) (q1 : List coords),
      round_state maze origin (i + n) = some (res1, q1) → Keeps maze res res1 := by
  intro n
  induction n with
  | zero =>
    intro res1 q1 h
    rw [Nat.add_zero, hi] at h
    simp only [Option.some.injEq, Prod.mk.injEq] at h
    rw [h.1]
    exact Keeps.refl _ _
  | succ n ih =>
    intro res1 q1 h
    obtain ⟨res0, q0, hs, _, hl⟩ := round_state_succ (j := i + n) h
    obtain ⟨hlev, hnd⟩ := round_state_level hwf ho (i + n) res0 q0 hs
    obtain ⟨_, _, hk, _⟩ := round_step hwf ho hlev hnd hl
    exact (ih res0 q0 hs).trans hk

theorem enqueued_count {maze : vec2} {origin : coords} (hwf : maze.wf)
    (ho : maze.valid origin = true) :
    ∀ j : Nat, enqueued maze origin j ≤ (maze.M * maze.N).toNat ∧
      ∀ res q, round_state maze origin j = some (res, q) →
        enqueued maze origin j + res.data.count (-1) = (maze.M * maze.N).toNat := by
  intro j
  induction j with
  | zero =>
    obtain ⟨r, hw, _, hcount⟩ := level_init ho
    have hs : round_state maze origin 0 = some (r, [origin]) := by simp [round_state, hw]
    have he : enqueued maze origin 0 = 1 := by simp [enqueued, hs]
    refine ⟨by omega, ?_⟩
    intro res q h
    rw [hs] at h
    simp only [Option.some.injEq, Prod.mk.injEq] at h
    rw [he, ← h.1]
    omega
  | succ j ih =>
    cases hs1 : round_state maze origin (j + 1) with
    | none =>
      have he : enqueued maze origin (j + 1) = enqueued maze origin j := by
        simp [enqueued, hs1]
      exact ⟨by rw [he]; exact ih.1, fun res q h => by simp at h⟩
    | some st =>
      obtain ⟨res1, q1⟩ := st
      obtain ⟨res, q, hs, _, hl⟩ := round_state_succ hs1
      obtain ⟨hlev, hnd⟩ := round_state_level hwf ho j res q hs
      obtain ⟨_, _, _, hcnt⟩ := round_step hwf ho hlev hnd hl
      have he : enqueued maze origin (j + 1) = enqueued maze origin j + q1.length := by
        simp [enqueued, hs1]
      have h2 := ih.2 res q hs
      refine ⟨by omega, ?_⟩
      intro res2 q2 h
      simp only [Option.some.injEq, Prod.mk.injEq] at h
      rw [← h.1]
      omega

theorem steps_loop_round_state {maze : vec2} {origin : coords} :
    ∀ (fuel j : Nat) (res : vec2) (q : List coords) (D : vec2),
      round_state maze origin j = some (res, q) →
      steps_loop maze fuel ((j : Int) + 1) res q = some D →
      ∃ i, round_state maze origin i = some (D, []) := by
  intro fuel
  induction fuel with
  | zero => intro j res q D _ h; simp [steps_loop] at h
  | succ fuel ih =>
    intro j res q D hs h
    rw [steps_loop] at h
    split at h
    · rename_i hq
      simp only [Option.some.injEq] at h
      subst h
      rw [List.isEmpty_iff] at hq
      subst hq
      exact ⟨j, hs⟩
    · rename_i hq
      cases hf : fields_loop maze ((j : Int) + 1) q.length (res, q) with
      | none => rw [hf] at h; simp at h
      | some st =>
        rw [hf] at h
        simp only [] at h
        have hs1 : round_state maze origin (j + 1) = some st := by
          rw [round_state, hs]
          simp only [hq]
          exact hf
        have hcast : ((j : Int) + 1 + 1) = (((j + 1 : Nat) : Int) + 1) := by push_cast; ring
        rw [hcast] at h
        exact ih (j + 1) st.1 st.2 D hs1 h

/-! ## Level-synchronous rounds -/

/-- C18: the rounds of `get_steps_map` are level-synchronous. At the start of the round with
`current_step_index = j+1` the queue holds exactly the cells whose value is `j`, each once;
a label other than `-1` is never changed in a later round; a cell that gets its label in
that round gets exactly `j+1` and is in the queue of the next round; a cell of one round's
queue is in no later queue; the number of cells appended to the queue never exceeds M*N;
and the loop ends, after at most M*N rounds, with the field that `get_steps_map` returns. -/
theorem get_steps_map_level_synchronous (maze : vec2) (origin : coords) (hwf : maze.wf)
    (ho : maze.valid origin = true) :
    (∀ j res q, round_state maze origin j = some (res, q) →
      q.Nodup ∧ ∀ p, p ∈ q ↔ maze.valid p = true ∧ res.read p = some (j : Int)) ∧
    (∀ i j res q res1 q1, i ≤ j → round_state maze origin i = some (res, q) →
      round_state maze origin j = some (res1, q1) →
      ∀ p x, maze.valid p = true → res.read p = some x → x ≠ -1 → res1.read p = some x) ∧
    (∀ j res q res1 q1, round_state maze origin j = some (res, q) →
      round_state maze origin (j + 1) = some (res1, q1) →
      ∀ p, maze.valid p = true → res.read p = some (-1) → res1.read p ≠ some (-1) →
        res1.read p = some ((j : Int) + 1) ∧ p ∈ q1) ∧
    (∀ i j res q res1 q1, i < j → round_state maze origin i = some (res, q) →
      round_state maze origin j = some (res1, q1) → ∀ p, p ∈ q → p ∉ q1) ∧
    (∀ j, enqueued maze origin j ≤ (maze.M * maze.N).toNat) ∧
    ∃ (j : Nat) (D : vec2), (j : Int) ≤ maze.M * maze.N ∧
      round_state maze origin j = some (D, []) ∧
      get_steps_map maze origin = some D := by
  have hkeep : ∀ i j res q res1 q1, i ≤ j → round_state maze origin i = some (res, q) →
      round_state maze origin j = some (res1, q1) → Keeps maze res res1 := by
    intro i j res q res1 q1 hij hi hj
    obtain ⟨n, rfl⟩ : ∃ n, j = i + n := ⟨j - i, by omega⟩
    exact round_state_keeps hwf ho hi n res1 q1 hj
  refine ⟨?_, ?_, ?_, ?_, ?_, ?_⟩
  · intro j res q h
    obtain ⟨hlev, hnd⟩ := round_state_level hwf ho j res q h
    exact ⟨hnd, hlev.q_iff⟩
  · intro i j res q res1 q1 hij hi hj p x hp hx hx1
    exact hkeep i j res q res1 q1 hij hi hj p x hp hx hx1
  · intro j res q res1 q1 hj hj1 p hp hp0 hp1
    obtain ⟨hlev, _⟩ := round_state_level hwf ho j res q hj
    obtain ⟨hlev1, _⟩ := round_state_level hwf ho (j + 1) res1 q1 hj1
    obtain ⟨x, hx⟩ := hlev1.toMid.read_res hp
    have hx1 : x ≠ -1 := by
      intro h; subst h; exact hp1 hx
    have hxr : 0 ≤ x ∧ x ≤ ((j + 1 : Nat) : Int) := by
      rcases hlev1.range p x hp hx with h | h
      · exact absurd h hx1
      · exact h
    have hxe : x = (j : Int) + 1 := by
      by_contra hne
      have hxn : x = ((x.toNat : Nat) : Int) := by omega
      have hle : x.toNat ≤ j := by push_cast at hxr; omega
      rw [hxn] at hx
      have hmin := (hlev1.old p hp x.toNat (by omega)).1 hx
      have := (hlev.old p hp x.toNat hle).2 hmin
      rw [hp0] at this
      have h3 := Option.some.inj this
      omega
    subst hxe
    refine ⟨hx, (hlev1.q_iff p).2 ⟨hp, ?_⟩⟩
    rw [hx]
    push_cast
    rfl
  · intro i j res q res1 q1 hij hi hj p hp hp1
    obtain ⟨hlev, _⟩ := round_state_level hwf ho i res q hi
    obtain ⟨hlev1, _⟩ := round_state_level hwf ho j res1 q1 hj
    obtain ⟨hv, hr⟩ := (hlev.q_iff p).1 hp
    obtain ⟨_, hr1⟩ := (hlev1.q_iff p).1 hp1
    have := hkeep i j res q res1 q1 (by omega) hi hj p i hv hr (by omega)
    rw [hr1] at this
    have h2 : (j : Int) = (i : Int) := by simpa using this
    omega
  · intro j
    exact (enqueued_count hwf ho j).1
  · obtain ⟨D, hD, _⟩ := get_steps_map_final hwf ho
    obtain ⟨r, hw, _, _⟩ := level_init ho
    have hs0 : round_state maze origin 0 = some (r, [origin]) := by simp [round_state, hw]
    have hne := vec2.not_empty_of_valid hwf ho
    have hloop : steps_loop maze (maze.data.length + 1) (((0 : Nat) : Int) + 1) r [origin]
        = some D := by
      have h := hD
      unfold get_steps_map get_steps_map_fuel at h
      simp only [hne, ho, hw] at h
      simpa using h
    obtain ⟨i, hi⟩ := steps_loop_round_state (maze.data.length + 1) 0 r [origin] D hs0 hloop
    refine ⟨i, D, ?_, hi, hD⟩
    cases i with
    | zero =>
      have hpos := vec2.pos_of_valid ho
      push_cast
      omega
    | succ i =>
      obtain ⟨res, q, hs, hq, _⟩ := round_state_succ hi
      obtain ⟨hlev, _⟩ := round_state_level hwf ho i res q hs
      obtain ⟨f, hf⟩ := List.exists_mem_of_ne_nil q hq
      obtain ⟨hfv, hfr⟩ := (hlev.q_iff f).1 hf
      have hb := hlev.bound f i hfv hfr
      have hl := hlev.len
      push_cast
      omega

/-- C18 at a concrete input: the obstacle-free 2x2 grid with origin (0,0), with the states of
its rounds. -/
theorem get_steps_map_level_synchronous_witness :
    (⟨2, 2, [2, 0, 0, 3]⟩ : vec2).wf ∧ (⟨2, 2, [2, 0, 0, 3]⟩ : vec2).valid ⟨0, 0⟩ = true ∧
    (∀ j res q, round_state ⟨2, 2, [2, 0, 0, 3]⟩ ⟨0, 0⟩ j = some (res, q) →
      q.Nodup ∧ ∀ p, p ∈ q ↔
        (⟨2, 2, [2, 0, 0, 3]⟩ : vec2).valid p = true ∧ res.read p = some (j : Int)) ∧
    (∀ j, enqueued ⟨2, 2, [2, 0, 0, 3]⟩ ⟨0, 0⟩ j ≤ ((2 : Int) * 2).toNat) ∧
    round_state ⟨2, 2, [2, 0, 0, 3]⟩ ⟨0, 0⟩ 1 =
      some (⟨2, 2, [0, 1, 1, -1]⟩, [⟨1, 0⟩, ⟨0, 1⟩]) ∧
    round_state ⟨2, 2, [2, 0, 0, 3]⟩ ⟨0, 0⟩ 3 = some (⟨2, 2, [0, 1, 1, 2]⟩, []) ∧
    enqueued ⟨2, 2, [2, 0, 0, 3]⟩ ⟨0, 0⟩ 3 = 4 :=
  ⟨by decide, by decide,
    (get_steps_map_level_synchronous ⟨2, 2, [2, 0, 0, 3]⟩ ⟨0, 0⟩ (by decide) (by decide)).1,
    (get_steps_map_level_synchronous ⟨2, 2, [2, 0, 0, 3]⟩ ⟨0, 0⟩ (by decide)
      (by decide)).2.2.2.2.1,
    by decide, by decide, by decide⟩
